import Mathlib

/-!
Verification of the Wave Function Collapse pattern generator
(`src/Claude opus 4.1/Python/main.py`).

The collapse/propagation engine is embedded shallowly: the mutable grid
becomes explicit state passing over an association list of cells keyed by
position (mirroring the Python dict), the propagation `while` loop becomes
a fuel-indexed recursion whose fuel is the remaining allowed iterations
(`PROPAGATION_LIMIT - iterations`), and the `while True` generation loop
becomes a recursion on a fuel that the driver instantiates with
`number of cells + 1`, which is provably sufficient because every
continuing iteration collapses one previously uncollapsed cell.

Python's `random` module (Mersenne Twister) and the floating-point Shannon
entropy cannot be represented exactly; their numeric outcomes are abstracted
into a `RandomModel`: a bundle of deterministic functions of the seed and of
a draw counter that is threaded through the run exactly where the source
consumes draws (one `random.random()` per entropy evaluation of a cell with
more than one possibility, one draw per `random.choices` call).  Every
control-flow decision, set operation and queue operation of the source is
embedded concretely.
-/

/-- The four compass directions used as tile sockets. -/
inductive Dir : Type
  | N
  | S
  | E
  | W
deriving DecidableEq

open Dir

/-- The `opposite` mapping from `Tile.can_connect`: N↔S, E↔W. -/
def opposite : Dir → Dir
  | N => S
  | S => N
  | E => W
  | W => E

/-- Immutable tile: output symbol, socket set, positive selection weight
(`@dataclass(frozen=True) class Tile`). -/
structure Tile where
  symbol : String
  sockets : Finset Dir
  weight : ℚ
deriving DecidableEq

/-- `Tile.can_connect`: true iff `direction ∈ self.sockets` and
`opposite[direction] ∈ other.sockets`. -/
def canConnect (a b : Tile) (d : Dir) : Bool :=
  decide (d ∈ a.sockets) && decide (opposite d ∈ b.sockets)

/-- Grid coordinates, `(x, y)` as Python integers. -/
abbrev Pos : Type := ℤ × ℤ

/-- Mutable cell state (`@dataclass class Cell`): position, set of still
possible tiles (modelled as a duplicate-free list in first-insertion order),
collapsed flag, and the chosen tile once collapsed. -/
structure Cell where
  position : Pos
  possibilities : List Tile
  collapsed : Bool
  chosen : Option Tile
deriving DecidableEq

/-- Placeholder cell returned by a lookup at a position that holds no cell;
such lookups never happen on the positions the algorithm touches. -/
def junkCell : Cell := ⟨(0, 0), [], false, none⟩

/-- The generator state that the claims are about: grid dimensions and the
cell store (`self.grid`, a dict keyed by position; modelled as a list of
cells in insertion order, looked up by position). -/
structure Grid where
  width : ℕ
  height : ℕ
  cells : List Cell
deriving DecidableEq

/-- Dictionary lookup `self.grid[pos]`. -/
def lookup (g : Grid) (p : Pos) : Cell :=
  (g.cells.find? (fun c => decide (c.position = p))).getD junkCell

/-- Writing back a mutated cell: every stored cell at the same position is
replaced (positions are unique in every reachable grid). -/
def update (g : Grid) (c' : Cell) : Grid :=
  { g with cells := g.cells.map (fun c => if c.position = c'.position then c' else c) }

/-- The bounds check `0 <= nx < self.width and 0 <= ny < self.height`. -/
def inRange (g : Grid) (p : Pos) : Prop :=
  0 ≤ p.1 ∧ p.1 < (g.width : ℤ) ∧ 0 ≤ p.2 ∧ p.2 < (g.height : ℤ)

instance (g : Grid) (p : Pos) : Decidable (inRange g p) := by
  unfold inRange
  infer_instance

/-- `_get_neighbors`: the four direction/position pairs in source order
(N, S, E, W), filtered to the grid bounds. -/
def neighborsOf (g : Grid) (p : Pos) : List (Dir × Pos) :=
  [(N, (p.1, p.2 - 1)), (S, (p.1, p.2 + 1)), (E, (p.1 + 1, p.2)), (W, (p.1 - 1, p.2))].filter
    (fun dq => decide (inRange g dq.2))

/-- `_initialize_grid`: one cell per coordinate, inserted row-major
(`for y ... for x ...`), each holding `set(self.tileset)` (the tile list
with duplicates removed). -/
def initGrid (w h : ℕ) (ts : List Tile) : Grid :=
  ⟨w, h, (List.range h).flatMap (fun (y : ℕ) =>
    (List.range w).map (fun (x : ℕ) => ⟨((x : ℤ), (y : ℤ)), ts.dedup, false, none⟩))⟩

/-- The module constant `PROPAGATION_LIMIT = 10000`. -/
def PROPAGATION_LIMIT : ℕ := 10000

/-- The assignment `neighbor.possibilities = valid_tiles`: the neighbor cell
with its possibility set replaced. -/
def narrowCell (c : Cell) (valid : List Tile) : Cell :=
  { c with possibilities := valid }

/-- The body of one propagation iteration: the `for direction, neighbor_pos`
loop over the popped cell's neighbors.  Returns `(ok, grid, queue)`;
`ok = false` is the early `return False` on a contradiction, taken after the
empty set has already been written to the neighbor. -/
def processNeighbors (cell : Cell) : List (Dir × Pos) → Grid → List Pos → Bool × Grid × List Pos
  | [], g, q => (true, g, q)
  | (d, np) :: ns, g, q =>
    let nb := lookup g np
    if nb.collapsed then processNeighbors cell ns g q
    else
      let rep := if cell.collapsed then cell.chosen.toList else cell.possibilities
      let valid := nb.possibilities.filter (fun t => rep.any (fun c => canConnect c t d))
      if valid.length < nb.possibilities.length then
        let g' := update g (narrowCell nb valid)
        if valid.isEmpty then (false, g', q)
        else processNeighbors cell ns g' (q ++ [np])
      else processNeighbors cell ns g q

/-- The propagation loop `while queue and iterations < PROPAGATION_LIMIT`.
The fuel argument is the number of iterations still allowed
(`PROPAGATION_LIMIT - iterations`); fuel `0` is the loop exiting because the
counter reached the limit, which falls through to `return True`. -/
def propagateAux : ℕ → Grid → List Pos → Bool × Grid
  | 0, g, _ => (true, g)
  | _ + 1, g, [] => (true, g)
  | fuel + 1, g, pos :: rest =>
    let cell := lookup g pos
    match processNeighbors cell (neighborsOf g pos) g rest with
    | (false, g', _) => (false, g')
    | (true, g', q') => propagateAux fuel g' q'

/-- `_propagate(start_pos)`: queue seeded with the start position, counter at
zero. -/
def propagate (g : Grid) (start : Pos) : Bool × Grid :=
  propagateAux PROPAGATION_LIMIT g [start]

/-- Abstraction of the numeric behaviour of Python's seeded global PRNG and
of the floating-point entropy computation, which are not exactly
representable.  `K` is the carrier of entropy-key values (IEEE doubles in
the source), with the float literal `0.0` (`kzero`), float addition (`kadd`)
and the float strict order (`klt`); `shannon ws` models the float Shannon
entropy of the weight list `ws`; `jitter seed k` models
`random.random() * 0.0001` at the k-th draw of the run seeded with `seed`;
`choice seed k ws` models the index into the population selected by
`random.choices(tiles, weights=ws)` at the k-th draw.  Any fixed model is a
deterministic function of the seed, exactly as the seeded Mersenne Twister
is. -/
structure RandomModel where
  K : Type
  kzero : K
  kadd : K → K → K
  klt : K → K → Bool
  shannon : List ℚ → K
  jitter : ℤ → ℕ → K
  choice : ℤ → ℕ → List ℚ → ℕ

/-- The `Cell.entropy` property: `0.0` (with no random draw) for a collapsed
cell or one with at most one possibility, otherwise the Shannon entropy of
the weights plus one jitter draw.  Returns the value and the advanced draw
counter. -/
def entropyKey (M : RandomModel) (seed : ℤ) (c : Cell) (k : ℕ) : M.K × ℕ :=
  if c.collapsed = true ∨ c.possibilities.length ≤ 1 then (M.kzero, k)
  else (M.kadd (M.shannon (c.possibilities.map (fun t => t.weight))) (M.jitter seed k), k + 1)

/-- Key evaluation of `min(candidates, key=lambda c: c.entropy)`: one key per
candidate, in candidate order, threading the draw counter. -/
def computeKeys (M : RandomModel) (seed : ℤ) : List Cell → ℕ → List (Cell × M.K) × ℕ
  | [], k => ([], k)
  | c :: cs, k =>
    let ek := entropyKey M seed c k
    let rest := computeKeys M seed cs ek.2
    ((c, ek.1) :: rest.1, rest.2)

/-- Python's `min` over keyed values: keeps the first element whose key is
strictly smaller than the current best, so ties resolve to the earliest
candidate. -/
def pyMin (M : RandomModel) : Cell × M.K → List (Cell × M.K) → Cell
  | best, [] => best.1
  | best, p :: ps => pyMin M (if M.klt p.2 best.2 then p else best) ps

/-- `_find_minimum_entropy_cell`: filter to uncollapsed cells with nonempty
possibilities, return the minimum-key cell, or `none` when there is no
candidate. -/
def findMinEntropyCell (M : RandomModel) (seed : ℤ) (g : Grid) (k : ℕ) : Option Cell × ℕ :=
  match computeKeys M seed (g.cells.filter (fun c => !c.collapsed && !c.possibilities.isEmpty)) k with
  | ([], k') => (none, k')
  | (p :: ps, k') => (some (pyMin M p ps), k')

/-- `_collapse_cell`: `none` models `return False` on an empty possibility
set; otherwise one weighted draw selects a tile from `list(cell.possibilities)`,
`chosen` is set to it, `possibilities` becomes the singleton containing it,
and `collapsed` is set. -/
def collapseCell (M : RandomModel) (seed : ℤ) (c : Cell) (k : ℕ) : Option (Cell × ℕ) :=
  match c.possibilities with
  | [] => none
  | t0 :: ts =>
    let tiles := t0 :: ts
    let idx := M.choice seed k (tiles.map (fun t => t.weight)) % tiles.length
    let t := tiles.get ⟨idx, Nat.mod_lt _ (Nat.succ_pos ts.length)⟩
    some ({ c with chosen := some t, possibilities := [t], collapsed := true }, k + 1)

/-- The `while True` loop of `generate`: select, collapse, propagate, repeat;
on selector exhaustion return `all(c.collapsed ...)`.  The fuel is a strict
upper bound on the number of iterations; `runWFC` supplies `cells + 1`,
which is sufficient because every continuing iteration collapses one more
cell, so exhaustion (returning failure) is unreachable from `runWFC`. -/
def genLoop (M : RandomModel) (seed : ℤ) : ℕ → Grid → ℕ → Bool × Grid
  | 0, g, _ => (false, g)
  | fuel + 1, g, k =>
    match findMinEntropyCell M seed g k with
    | (none, _) => (g.cells.all (fun c => c.collapsed), g)
    | (some cell, k1) =>
      match collapseCell M seed cell k1 with
      | none => (false, g)
      | some (c', k2) =>
        let g1 := update g c'
        match propagate g1 cell.position with
        | (false, g2) => (false, g2)
        | (true, g2) => genLoop M seed fuel g2 k2

/-- One full run: `WFCGenerator(width, height, tileset, seed)` (which seeds
the generator, resetting the draw counter to zero, and initializes the grid)
followed by `generate()`. -/
def runWFC (M : RandomModel) (w h : ℕ) (ts : List Tile) (seed : ℤ) : Bool × Grid :=
  let g := initGrid w h ts
  genLoop M seed (g.cells.length + 1) g 0

/-- The `Pattern.MAZE` tileset: wall (weight 2, all sockets) and path
(weight 1, all sockets). -/
def mazeTileset : List Tile :=
  [⟨"█", {N, S, E, W}, 2⟩, ⟨" ", {N, S, E, W}, 1⟩]

/-- A concrete random model used to instantiate witnesses; any model works
for the parametric theorems. -/
def trivialModel : RandomModel :=
  ⟨Unit, (), fun _ _ => (), fun _ _ => false, fun _ => (), fun _ _ => (), fun _ _ _ => 0⟩

/-! Basic facts about directions and the connection predicate. -/

theorem opposite_opposite (d : Dir) : opposite (opposite d) = d := by
  cases d <;> rfl

theorem canConnect_flip (a b : Tile) (d : Dir) :
    canConnect b a (opposite d) = canConnect a b d := by
  cases d <;> simp [canConnect, opposite, Bool.and_comm]

theorem canConnect_true_iff (a b : Tile) (d : Dir) :
    canConnect a b d = true ↔ (d ∈ a.sockets ∧ opposite d ∈ b.sockets) := by
  simp [canConnect]

/-! Lookup and update on the cell store. -/

theorem find?_eq_of_unique {α : Type} (pr : α → Bool) (a : α) :
    ∀ l : List α, (∃ x ∈ l, pr x = true) → (∀ x ∈ l, pr x = true → x = a) →
      l.find? pr = some a
  | [], hex, _ => by simp at hex
  | x :: l, hex, huniq => by
    by_cases hx : pr x = true
    · rw [List.find?_cons_of_pos _ hx]
      exact congrArg some (huniq x (List.mem_cons_self x l) hx)
    · rw [List.find?_cons_of_neg _ hx]
      refine find?_eq_of_unique pr a l ?_ ?_
      · obtain ⟨y, hy, hpy⟩ := hex
        rcases List.mem_cons.mp hy with h | h
        · exact absurd (h ▸ hpy) hx
        · exact ⟨y, h, hpy⟩
      · exact fun y hy hpy => huniq y (List.mem_cons_of_mem x hy) hpy

theorem lookup_spec (g : Grid) (p : Pos) (hx : ∃ c ∈ g.cells, c.position = p) :
    lookup g p ∈ g.cells ∧ (lookup g p).position = p := by
  obtain ⟨c, hc, hcp⟩ := hx
  have hsome : (g.cells.find? (fun c => decide (c.position = p))).isSome := by
    rw [List.find?_isSome]
    exact ⟨c, hc, by simp [hcp]⟩
  obtain ⟨a, ha⟩ := Option.isSome_iff_exists.mp hsome
  have hmem := List.mem_of_find?_eq_some ha
  have hpos := List.find?_some ha
  simp only [decide_eq_true_eq] at hpos
  simp [lookup, ha, hmem, hpos]

theorem lookup_of_not_exists (g : Grid) (p : Pos)
    (hx : ∀ c ∈ g.cells, c.position ≠ p) : lookup g p = junkCell := by
  have : g.cells.find? (fun c => decide (c.position = p)) = none := by
    rw [List.find?_eq_none]
    intro c hc
    simp [hx c hc]
  simp [lookup, this]

theorem update_width (g : Grid) (c' : Cell) : (update g c').width = g.width := rfl

theorem update_height (g : Grid) (c' : Cell) : (update g c').height = g.height := rfl

theorem update_length (g : Grid) (c' : Cell) :
    (update g c').cells.length = g.cells.length := by
  simp [update]

theorem update_positions (g : Grid) (c' : Cell) :
    (update g c').cells.map (fun c => c.position) = g.cells.map (fun c => c.position) := by
  simp only [update, List.map_map]
  refine List.map_congr_left ?_
  intro c _
  by_cases h : c.position = c'.position <;> simp [h]

theorem lookup_update_self (g : Grid) (c' : Cell)
    (hx : ∃ c ∈ g.cells, c.position = c'.position) :
    lookup (update g c') c'.position = c' := by
  have hmem : c' ∈ (update g c').cells := by
    obtain ⟨c, hc, hcp⟩ := hx
    simp only [update, List.mem_map]
    exact ⟨c, hc, by simp [hcp]⟩
  have hax : ∃ c ∈ (update g c').cells, c.position = c'.position := ⟨c', hmem, rfl⟩
  have hkey : ∀ x ∈ (update g c').cells, decide (x.position = c'.position) = true → x = c' := by
    intro x hxmem hxp
    simp only [update, List.mem_map] at hxmem
    obtain ⟨c, _, hcx⟩ := hxmem
    by_cases h : c.position = c'.position
    · simp [h] at hcx
      exact hcx.symm
    · simp [h] at hcx
      simp only [decide_eq_true_eq] at hxp
      exact absurd (hcx ▸ hxp) h
  have := find?_eq_of_unique (fun c => decide (c.position = c'.position)) c'
    (update g c').cells (by obtain ⟨c, hc, hcp⟩ := hax; exact ⟨c, hc, by simp [hcp]⟩) hkey
  simp [lookup, this]

theorem find?_map_invariant {α : Type} (f : α → α) (pr : α → Bool)
    (hsame : ∀ a, pr (f a) = pr a) (hfix : ∀ a, pr a = true → f a = a) :
    ∀ l : List α, (l.map f).find? pr = l.find? pr
  | [] => rfl
  | a :: l => by
    by_cases hpa : pr a = true
    · have hfa : pr (f a) = true := (hsame a).trans hpa
      simp [List.find?, hpa, hfa, hfix a hpa]
    · have hfa : pr (f a) = false := by
        rw [hsame a]
        exact Bool.not_eq_true _ ▸ eq_false_of_ne_true hpa
      simp only [List.map_cons, List.find?, hfa, eq_false_of_ne_true hpa]
      exact find?_map_invariant f pr hsame hfix l

theorem lookup_update_ne (g : Grid) (c' : Cell) (q : Pos) (hq : q ≠ c'.position) :
    lookup (update g c') q = lookup g q := by
  suffices h : ((update g c').cells).find? (fun c => decide (c.position = q))
      = (g.cells).find? (fun c => decide (c.position = q)) by
    simp [lookup, h]
  refine find?_map_invariant _ _ ?_ ?_ g.cells
  · intro a
    by_cases h : a.position = c'.position
    · simp [h]
    · simp [if_neg h]
  · intro a ha
    simp only [decide_eq_true_eq] at ha
    have : ¬ a.position = c'.position := fun h2 => hq ((h2 ▸ ha).symm ▸ rfl)
    simp [this]

/-! Facts about the neighbor enumeration. -/

theorem neighborsOf_inRange (g : Grid) (p : Pos) (dq : Dir × Pos)
    (h : dq ∈ neighborsOf g p) : inRange g dq.2 := by
  simp only [neighborsOf, List.mem_filter, decide_eq_true_eq] at h
  exact h.2

theorem neighborsOf_ne (g : Grid) (p : Pos) (dq : Dir × Pos)
    (h : dq ∈ neighborsOf g p) : dq.2 ≠ p := by
  simp only [neighborsOf, List.mem_filter] at h
  have hm := h.1
  simp only [List.mem_cons, List.not_mem_nil, or_false] at hm
  rcases hm with h1 | h1 | h1 | h1 <;> subst h1 <;> intro heq <;>
    rw [Prod.ext_iff] at heq <;> obtain ⟨ha, hb⟩ := heq <;> simp only [] at ha hb <;> omega

theorem neighborsOf_dims (g g' : Grid) (p : Pos) (hw : g'.width = g.width)
    (hh : g'.height = g.height) : neighborsOf g' p = neighborsOf g p := by
  simp [neighborsOf, inRange, hw, hh]

theorem inRange_dims (g g' : Grid) (p : Pos) (hw : g'.width = g.width)
    (hh : g'.height = g.height) : inRange g' p ↔ inRange g p := by
  simp [inRange, hw, hh]

theorem neighborsOf_symm (g : Grid) (p : Pos) (dq : Dir × Pos) (hp : inRange g p)
    (h : dq ∈ neighborsOf g p) : (opposite dq.1, p) ∈ neighborsOf g dq.2 := by
  simp only [neighborsOf, List.mem_filter, decide_eq_true_eq] at h ⊢
  obtain ⟨hm, hr⟩ := h
  simp only [List.mem_cons, List.not_mem_nil, or_false] at hm
  refine ⟨?_, hp⟩
  rcases hm with h1 | h1 | h1 | h1 <;> subst h1 <;> simp only [opposite] <;> simp only [List.mem_cons] <;>
    [skip; skip; skip; skip]
  · exact Or.inr (Or.inl (by simp))
  · exact Or.inl (by simp)
  · exact Or.inr (Or.inr (Or.inr (Or.inl (by simp))))
  · exact Or.inr (Or.inr (Or.inl (by simp)))

/-! Facts about the initial grid. -/

theorem mem_initGrid (w h : ℕ) (ts : List Tile) (c : Cell) :
    c ∈ (initGrid w h ts).cells ↔
      ∃ x y : ℕ, x < w ∧ y < h ∧ c = ⟨((x : ℤ), (y : ℤ)), ts.dedup, false, none⟩ := by
  simp only [initGrid, List.mem_flatMap, List.mem_map, List.mem_range]
  constructor
  · rintro ⟨y, hy, x, hx, rfl⟩
    exact ⟨x, y, hx, hy, rfl⟩
  · rintro ⟨x, y, hx, hy, rfl⟩
    exact ⟨y, hy, x, hx, rfl⟩

theorem initGrid_width (w h : ℕ) (ts : List Tile) : (initGrid w h ts).width = w := rfl

theorem initGrid_height (w h : ℕ) (ts : List Tile) : (initGrid w h ts).height = h := rfl

theorem initGrid_length (w h : ℕ) (ts : List Tile) :
    (initGrid w h ts).cells.length = h * w := by
  simp only [initGrid, List.length_flatMap, List.map_map, Function.comp_def,
    List.length_map, List.length_range]
  rw [List.map_const', List.length_range, List.sum_replicate, smul_eq_mul]

theorem inRange_initGrid (w h : ℕ) (ts : List Tile) (p : Pos) :
    inRange (initGrid w h ts) p ↔
      ∃ x y : ℕ, x < w ∧ y < h ∧ p = ((x : ℤ), (y : ℤ)) := by
  constructor
  · rintro ⟨h1, h2, h3, h4⟩
    rw [initGrid_width] at h2
    rw [initGrid_height] at h4
    refine ⟨p.1.toNat, p.2.toNat, by omega, by omega, ?_⟩
    have e1 : ((p.1.toNat : ℤ)) = p.1 := Int.toNat_of_nonneg h1
    have e2 : ((p.2.toNat : ℤ)) = p.2 := Int.toNat_of_nonneg h3
    exact (Prod.ext e1.symm e2.symm)
  · rintro ⟨x, y, hx, hy, rfl⟩
    refine ⟨Int.natCast_nonneg x, ?_, Int.natCast_nonneg y, ?_⟩ <;>
      simp only [initGrid_width, initGrid_height] <;> exact_mod_cast ‹_›

theorem lookup_initGrid (w h : ℕ) (ts : List Tile) (x y : ℕ) (hx : x < w) (hy : y < h) :
    lookup (initGrid w h ts) ((x : ℤ), (y : ℤ))
      = ⟨((x : ℤ), (y : ℤ)), ts.dedup, false, none⟩ := by
  have hfind := find?_eq_of_unique (fun c => decide (c.position = ((x : ℤ), (y : ℤ))))
    (⟨((x : ℤ), (y : ℤ)), ts.dedup, false, none⟩ : Cell) (initGrid w h ts).cells
    ⟨_, (mem_initGrid w h ts _).mpr ⟨x, y, hx, hy, rfl⟩, by simp⟩
    (by
      intro c hc hcp
      obtain ⟨x', y', _, _, rfl⟩ := (mem_initGrid w h ts c).mp hc
      simp only [decide_eq_true_eq, Prod.mk.injEq] at hcp
      have hx' : x' = x := by exact_mod_cast hcp.1
      have hy' : y' = y := by exact_mod_cast hcp.2
      rw [hx', hy'])
  simp [lookup, hfind]

theorem initGrid_positions_nodup (w h : ℕ) (ts : List Tile) :
    ((initGrid w h ts).cells.map (fun c => c.position)).Nodup := by
  simp only [initGrid, List.map_flatMap, List.map_map]
  rw [List.nodup_flatMap]
  constructor
  · intro y _
    refine List.Nodup.map ?_ (List.nodup_range w)
    intro a b hab
    simp only [Function.comp_def, Prod.mk.injEq, Nat.cast_inj] at hab
    exact hab.1
  · refine (List.pairwise_lt_range h).imp ?_
    intro y1 y2 hlt
    simp only [Function.onFun]
    intro pz hz1 hz2
    simp only [Function.comp_def, List.mem_map, List.mem_range] at hz1 hz2
    obtain ⟨x1, _, he1⟩ := hz1
    obtain ⟨x2, _, he2⟩ := hz2
    have h1 := congrArg Prod.snd he1
    have h2 := congrArg Prod.snd he2
    dsimp only at h1 h2
    have h3 : ((y1 : ℕ) : ℤ) = ((y2 : ℕ) : ℤ) := h1.trans h2.symm
    omega

/-! One-step unfolding of the neighbor loop, used throughout. -/

theorem processNeighbors_cons (cell : Cell) (d : Dir) (np : Pos) (ns : List (Dir × Pos))
    (g : Grid) (q : List Pos) :
    processNeighbors cell ((d, np) :: ns) g q =
      (if (lookup g np).collapsed then processNeighbors cell ns g q
       else
         let rep := if cell.collapsed then cell.chosen.toList else cell.possibilities
         let valid := (lookup g np).possibilities.filter
           (fun t => rep.any (fun c => canConnect c t d))
         if valid.length < (lookup g np).possibilities.length then
           (if valid.isEmpty then
              (false, update g (narrowCell (lookup g np) valid), q)
            else processNeighbors cell ns
              (update g (narrowCell (lookup g np) valid)) (q ++ [np]))
         else processNeighbors cell ns g q) := rfl

theorem narrowCell_position (c : Cell) (valid : List Tile) :
    (narrowCell c valid).position = c.position := rfl

theorem narrowCell_possibilities (c : Cell) (valid : List Tile) :
    (narrowCell c valid).possibilities = valid := rfl

theorem narrowCell_collapsed (c : Cell) (valid : List Tile) :
    (narrowCell c valid).collapsed = c.collapsed := rfl

theorem narrowCell_chosen (c : Cell) (valid : List Tile) :
    (narrowCell c valid).chosen = c.chosen := rfl

theorem lookup_cases (g : Grid) (p : Pos) :
    (lookup g p ∈ g.cells ∧ (lookup g p).position = p) ∨
      (lookup g p = junkCell ∧ ∀ c ∈ g.cells, c.position ≠ p) := by
  cases hf : g.cells.find? (fun c => decide (c.position = p)) with
  | none =>
    refine Or.inr ⟨by simp [lookup, hf], ?_⟩
    intro c hc
    have := List.find?_eq_none.mp hf c hc
    simpa using this
  | some a =>
    refine Or.inl ⟨?_, ?_⟩
    · simp only [lookup, hf, Option.getD_some]
      exact List.mem_of_find?_eq_some hf
    · have := List.find?_some hf
      simp only [decide_eq_true_eq] at this
      simp [lookup, hf, this]

/-- The transition relation that every propagation step respects: dimensions,
positions, collapse flags and chosen tiles are untouched, possibility lists
only lose elements, and collapsed cells are untouched entirely. -/
def Shrinks (g g' : Grid) : Prop :=
  g'.width = g.width ∧ g'.height = g.height ∧
  g'.cells.map (fun c => c.position) = g.cells.map (fun c => c.position) ∧
  ∀ p : Pos,
    (lookup g' p).possibilities.Sublist (lookup g p).possibilities ∧
    (lookup g' p).collapsed = (lookup g p).collapsed ∧
    (lookup g' p).chosen = (lookup g p).chosen ∧
    (lookup g' p).position = (lookup g p).position ∧
    ((lookup g p).collapsed = true → lookup g' p = lookup g p)

theorem shrinks_refl (g : Grid) : Shrinks g g :=
  ⟨rfl, rfl, rfl, fun _ => ⟨List.Sublist.refl _, rfl, rfl, rfl, fun _ => rfl⟩⟩

theorem shrinks_trans {g g' g'' : Grid} (h1 : Shrinks g g') (h2 : Shrinks g' g'') :
    Shrinks g g'' := by
  obtain ⟨w1, h1h, p1, f1⟩ := h1
  obtain ⟨w2, h2h, p2, f2⟩ := h2
  refine ⟨w2.trans w1, h2h.trans h1h, p2.trans p1, fun p => ?_⟩
  obtain ⟨s1, c1, ch1, po1, u1⟩ := f1 p
  obtain ⟨s2, c2, ch2, po2, u2⟩ := f2 p
  refine ⟨s2.trans s1, c2.trans c1, ch2.trans ch1, po2.trans po1, fun hc => ?_⟩
  rw [u2 (c1.trans hc), u1 hc]

theorem shrinks_update {np : Pos} (g : Grid) (valid : List Tile)
    (hmem : lookup g np ∈ g.cells) (hpos : (lookup g np).position = np)
    (hsub : valid.Sublist (lookup g np).possibilities)
    (hcol : (lookup g np).collapsed = false) :
    Shrinks g (update g (narrowCell (lookup g np) valid)) := by
  have hcpos : (narrowCell (lookup g np) valid : Cell).position = np := hpos
  refine ⟨rfl, rfl, update_positions g _, fun p => ?_⟩
  by_cases hp : p = np
  · subst hp
    have hl0 := lookup_update_self g (narrowCell (lookup g p) valid) ⟨_, hmem, rfl⟩
    rw [hcpos] at hl0
    rw [hl0]
    exact ⟨hsub, rfl, rfl, rfl, fun hc => absurd (hcol.symm.trans hc) (by simp)⟩
  · have hl := lookup_update_ne g (narrowCell (lookup g np) valid) p
      (by rw [hcpos]; exact hp)
    rw [hl]
    exact ⟨List.Sublist.refl _, rfl, rfl, rfl, fun _ => rfl⟩

theorem processNeighbors_shrinks (cell : Cell) :
    ∀ (ns : List (Dir × Pos)) (g : Grid) (q : List Pos),
      Shrinks g (processNeighbors cell ns g q).2.1
  | [], g, q => shrinks_refl g
  | (d, np) :: ns, g, q => by
    rw [processNeighbors_cons]
    by_cases h1 : (lookup g np).collapsed
    · simp only [if_pos h1]
      exact processNeighbors_shrinks cell ns g q
    · simp only [if_neg h1]
      set valid := (lookup g np).possibilities.filter
        (fun t => (if cell.collapsed then cell.chosen.toList else cell.possibilities).any
          (fun c => canConnect c t d)) with hvalid
      by_cases h2 : valid.length < (lookup g np).possibilities.length
      · have hne : (lookup g np).possibilities ≠ [] := by
          intro hnil
          rw [hnil] at h2
          simp at h2
        have hmem : lookup g np ∈ g.cells ∧ (lookup g np).position = np := by
          rcases lookup_cases g np with h | h
          · exact h
          · rw [h.1] at hne
            simp [junkCell] at hne
        have hS : Shrinks g (update g (narrowCell (lookup g np) valid)) :=
          shrinks_update g valid hmem.1 hmem.2 (List.filter_sublist _)
            (Bool.not_eq_true _ ▸ eq_false_of_ne_true h1)
        simp only [if_pos h2]
        by_cases h3 : valid.isEmpty
        · simp only [if_pos h3]
          exact hS
        · simp only [if_neg h3]
          exact shrinks_trans hS (processNeighbors_shrinks cell ns _ _)
      · simp only [if_neg h2]
        exact processNeighbors_shrinks cell ns g q

theorem propagateAux_shrinks : ∀ (fuel : ℕ) (g : Grid) (q : List Pos),
    Shrinks g (propagateAux fuel g q).2
  | 0, g, _ => shrinks_refl g
  | _ + 1, g, [] => shrinks_refl g
  | fuel + 1, g, pos :: rest => by
    show Shrinks g (match processNeighbors (lookup g pos) (neighborsOf g pos) g rest with
      | (false, g', _) => (false, g')
      | (true, g', q') => propagateAux fuel g' q').2
    have hS := processNeighbors_shrinks (lookup g pos) (neighborsOf g pos) g rest
    rcases hpn : processNeighbors (lookup g pos) (neighborsOf g pos) g rest with ⟨b, g', q'⟩
    rw [hpn] at hS
    cases b
    · exact hS
    · exact shrinks_trans hS (propagateAux_shrinks fuel g' q')

theorem Shrinks.length_eq {g g' : Grid} (h : Shrinks g g') :
    g'.cells.length = g.cells.length := by
  have := congrArg List.length h.2.2.1
  simpa using this

/-- Well-formedness of a reachable grid: every stored cell is in range and is
returned by lookup at its own position, every in-range position has a cell,
and stored positions are pairwise distinct. -/
def WFg (g : Grid) : Prop :=
  (∀ c ∈ g.cells, inRange g c.position ∧ lookup g c.position = c) ∧
  (∀ x ∈ List.range g.width, ∀ y ∈ List.range g.height,
    ∃ c ∈ g.cells, c.position = ((x : ℤ), (y : ℤ))) ∧
  (g.cells.map (fun c => c.position)).Nodup

instance (g : Grid) : Decidable (WFg g) := by
  unfold WFg
  infer_instance

theorem WFg.exists_cell {g : Grid} (hw : WFg g) {p : Pos} (hp : inRange g p) :
    ∃ c ∈ g.cells, c.position = p := by
  obtain ⟨h1, h2, h3, h4⟩ := hp
  have hx : p.1.toNat ∈ List.range g.width := by
    rw [List.mem_range]
    omega
  have hy : p.2.toNat ∈ List.range g.height := by
    rw [List.mem_range]
    omega
  obtain ⟨c, hc, hcp⟩ := hw.2.1 p.1.toNat hx p.2.toNat hy
  refine ⟨c, hc, ?_⟩
  rw [hcp]
  have e1 : ((p.1.toNat : ℤ)) = p.1 := Int.toNat_of_nonneg h1
  have e2 : ((p.2.toNat : ℤ)) = p.2 := Int.toNat_of_nonneg h3
  exact Prod.ext e1 e2

theorem WFg.lookup_mem {g : Grid} (hw : WFg g) {p : Pos} (hp : inRange g p) :
    lookup g p ∈ g.cells ∧ (lookup g p).position = p :=
  lookup_spec g p (hw.exists_cell hp)

theorem WFg_update {g : Grid} (hw : WFg g) (c' : Cell) : WFg (update g c') := by
  refine ⟨?_, ?_, ?_⟩
  · intro c'' hc''
    simp only [update, List.mem_map] at hc''
    obtain ⟨c, hc, hfc⟩ := hc''
    by_cases hm : c.position = c'.position
    · simp only [if_pos hm] at hfc
      rw [← hfc]
      constructor
      · rw [inRange_dims g (update g c') _ rfl rfl]
        exact hm ▸ (hw.1 c hc).1
      · exact lookup_update_self g c' ⟨c, hc, hm⟩
    · simp only [if_neg hm] at hfc
      rw [← hfc]
      constructor
      · rw [inRange_dims g (update g c') _ rfl rfl]
        exact (hw.1 c hc).1
      · rw [lookup_update_ne g c' c.position hm]
        exact (hw.1 c hc).2
  · intro x hx y hy
    obtain ⟨c, hc, hcp⟩ := hw.2.1 x hx y hy
    refine ⟨if c.position = c'.position then c' else c, ?_, ?_⟩
    · simp only [update, List.mem_map]
      exact ⟨c, hc, rfl⟩
    · by_cases hm : c.position = c'.position
      · simp only [if_pos hm]
        rw [← hm]
        exact hcp
      · simp only [if_neg hm]
        exact hcp
  · rw [update_positions]
    exact hw.2.2

theorem processNeighbors_WF (cell : Cell) :
    ∀ (ns : List (Dir × Pos)) (g : Grid) (q : List Pos),
      WFg g → WFg (processNeighbors cell ns g q).2.1
  | [], _, _, hw => hw
  | (d, np) :: ns, g, q, hw => by
    rw [processNeighbors_cons]
    by_cases h1 : (lookup g np).collapsed
    · simp only [if_pos h1]
      exact processNeighbors_WF cell ns g q hw
    · simp only [if_neg h1]
      set valid := (lookup g np).possibilities.filter
        (fun t => (if cell.collapsed then cell.chosen.toList else cell.possibilities).any
          (fun c => canConnect c t d)) with hvalid
      by_cases h2 : valid.length < (lookup g np).possibilities.length
      · have hne : (lookup g np).possibilities ≠ [] := by
          intro hnil
          rw [hnil] at h2
          simp at h2
        have hmem : lookup g np ∈ g.cells ∧ (lookup g np).position = np := by
          rcases lookup_cases g np with h | h
          · exact h
          · rw [h.1] at hne
            simp [junkCell] at hne
        have hwf1 : WFg (update g (narrowCell (lookup g np) valid)) :=
          WFg_update hw _
        simp only [if_pos h2]
        by_cases h3 : valid.isEmpty
        · simp only [if_pos h3]
          exact hwf1
        · simp only [if_neg h3]
          exact processNeighbors_WF cell ns _ _ hwf1
      · simp only [if_neg h2]
        exact processNeighbors_WF cell ns g q hw

theorem propagateAux_WF : ∀ (fuel : ℕ) (g : Grid) (q : List Pos),
    WFg g → WFg (propagateAux fuel g q).2
  | 0, _, _, hw => hw
  | _ + 1, _, [], hw => hw
  | fuel + 1, g, pos :: rest, hw => by
    show WFg (match processNeighbors (lookup g pos) (neighborsOf g pos) g rest with
      | (false, g', _) => (false, g')
      | (true, g', q') => propagateAux fuel g' q').2
    have hw' := processNeighbors_WF (lookup g pos) (neighborsOf g pos) g rest hw
    rcases hpn : processNeighbors (lookup g pos) (neighborsOf g pos) g rest with ⟨b, g', q'⟩
    rw [hpn] at hw'
    cases b
    · exact hw'
    · exact propagateAux_WF fuel g' q' hw'

theorem WFg_initGrid (w h : ℕ) (ts : List Tile) : WFg (initGrid w h ts) := by
  refine ⟨?_, ?_, initGrid_positions_nodup w h ts⟩
  · intro c hc
    obtain ⟨x, y, hx, hy, rfl⟩ := (mem_initGrid w h ts c).mp hc
    constructor
    · rw [inRange_initGrid]
      exact ⟨x, y, hx, hy, rfl⟩
    · exact lookup_initGrid w h ts x y hx hy
  · intro x hx y hy
    rw [List.mem_range] at hx hy
    exact ⟨_, (mem_initGrid w h ts _).mpr ⟨x, y, hx, hy, rfl⟩, rfl⟩

/-! Termination measure for propagation: total possibility mass plus queue
length.  Each iteration pops one position and pays for every enqueue with a
strict shrink of the enqueued neighbor's possibility list. -/

/-- Sum of the possibility-set sizes over all cells. -/
def sumSizes (g : Grid) : ℕ :=
  (g.cells.map (fun c => c.possibilities.length)).sum

theorem sum_map_update_list (c' nb : Cell) :
    ∀ l : List Cell, nb ∈ l → (l.map (fun c => c.position)).Nodup →
      c'.position = nb.position →
      ((l.map (fun c => if c.position = c'.position then c' else c)).map
          (fun c => c.possibilities.length)).sum + nb.possibilities.length
        = (l.map (fun c => c.possibilities.length)).sum + c'.possibilities.length
  | [], hmem, _, _ => absurd hmem (List.not_mem_nil nb)
  | a :: l, hmem, hnd, hpos => by
    simp only [List.map_cons, List.nodup_cons] at hnd
    obtain ⟨hnotin, hndl⟩ := hnd
    by_cases hm : a.position = c'.position
    · have hnb : nb = a := by
        rcases List.mem_cons.mp hmem with h | h
        · exact h
        · exfalso
          apply hnotin
        
          rw [List.mem_map]
          exact ⟨nb, h, by rw [← hpos, ← hm]⟩
      have htail : l.map (fun c => if c.position = c'.position then c' else c) = l := by
        conv_rhs => rw [← List.map_id l]
        refine List.map_congr_left ?_
        intro x hx
        have hxne : x.position ≠ c'.position := by
          intro hxp
          apply hnotin
          rw [List.mem_map]
          exact ⟨x, hx, by rw [hxp, hm]⟩
        simp [hxne]
      simp only [List.map_cons, if_pos hm, htail, List.sum_cons]
      subst hnb
      omega
    · have hnbl : nb ∈ l := by
        rcases List.mem_cons.mp hmem with h | h
        · exfalso
          apply hm
          rw [← h, ← hpos]
        · exact h
      have ih := sum_map_update_list c' nb l hnbl hndl hpos
      simp only [List.map_cons, if_neg hm, List.sum_cons]
      omega

theorem sumSizes_update (g : Grid) (nb c' : Cell) (hmem : nb ∈ g.cells)
    (hpos : c'.position = nb.position)
    (hnd : (g.cells.map (fun c => c.position)).Nodup) :
    sumSizes (update g c') + nb.possibilities.length
      = sumSizes g + c'.possibilities.length :=
  sum_map_update_list c' nb g.cells hmem hnd hpos

theorem processNeighbors_measure (cell : Cell) :
    ∀ (ns : List (Dir × Pos)) (g : Grid) (q : List Pos) (g' : Grid) (q' : List Pos),
      WFg g → processNeighbors cell ns g q = (true, g', q') →
      sumSizes g' + q'.length ≤ sumSizes g + q.length
  | [], g, q, g', q', _, hpn => by
    simp only [processNeighbors] at hpn
    obtain ⟨rfl, rfl⟩ : g = g' ∧ q = q' := by
      constructor <;> [exact congrArg (fun r => r.2.1) hpn; exact congrArg (fun r => r.2.2) hpn]
    exact le_refl _
  | (d, np) :: ns, g, q, g', q', hw, hpn => by
    rw [processNeighbors_cons] at hpn
    by_cases h1 : (lookup g np).collapsed
    · rw [if_pos h1] at hpn
      exact processNeighbors_measure cell ns g q g' q' hw hpn
    · rw [if_neg h1] at hpn
      simp only at hpn
      set valid := (lookup g np).possibilities.filter
        (fun t => (if cell.collapsed then cell.chosen.toList else cell.possibilities).any
          (fun c => canConnect c t d)) with hvalid
      by_cases h2 : valid.length < (lookup g np).possibilities.length
      · rw [if_pos h2] at hpn
        have hne : (lookup g np).possibilities ≠ [] := by
          intro hnil
          rw [hnil] at h2
          simp at h2
        have hmem : lookup g np ∈ g.cells ∧ (lookup g np).position = np := by
          rcases lookup_cases g np with h | h
          · exact h
          · rw [h.1] at hne
            simp [junkCell] at hne
        have hsum := sumSizes_update g (lookup g np)
          (narrowCell (lookup g np) valid) hmem.1 rfl hw.2.2
        by_cases h3 : valid.isEmpty
        · rw [if_pos h3] at hpn
          exact absurd (congrArg (fun r => r.1) hpn) (by simp)
        · rw [if_neg h3] at hpn
          have hwf1 : WFg (update g (narrowCell (lookup g np) valid)) :=
            WFg_update hw _
          have ih := processNeighbors_measure cell ns _ _ g' q' hwf1 hpn
          simp only [List.length_append, List.length_cons, List.length_nil] at ih
          have hlen : (narrowCell (lookup g np) valid : Cell).possibilities.length
              = valid.length := rfl
          omega
      · rw [if_neg h2] at hpn
        exact processNeighbors_measure cell ns g q g' q' hw hpn

theorem propagateAux_nil (fuel : ℕ) (g : Grid) : propagateAux fuel g [] = (true, g) := by
  cases fuel <;> rfl

theorem propagateAux_cons (fuel : ℕ) (g : Grid) (pos : Pos) (rest : List Pos) :
    propagateAux (fuel + 1) g (pos :: rest)
      = match processNeighbors (lookup g pos) (neighborsOf g pos) g rest with
        | (false, g', _) => (false, g')
        | (true, g', q') => propagateAux fuel g' q' := rfl

theorem propagateAux_fuel_irrel_aux :
    ∀ (n : ℕ) (g : Grid) (q : List Pos) (f1 f2 : ℕ), WFg g →
      sumSizes g + q.length ≤ n → sumSizes g + q.length ≤ f1 →
      sumSizes g + q.length ≤ f2 →
      propagateAux f1 g q = propagateAux f2 g q
  | 0, g, q, f1, f2, _, hN, _, _ => by
    have hq : q = [] := by
      cases q with
      | nil => rfl
      | cons a l => simp at hN
    subst hq
    rw [propagateAux_nil, propagateAux_nil]
  | n + 1, g, q, f1, f2, hw, hN, h1, h2 => by
    cases q with
    | nil => rw [propagateAux_nil, propagateAux_nil]
    | cons pos rest =>
      have hlen : 1 ≤ sumSizes g + (pos :: rest).length := by
        simp only [List.length_cons]
        omega
      cases f1 with
      | zero => omega
      | succ a =>
        cases f2 with
        | zero => omega
        | succ b =>
          rw [propagateAux_cons, propagateAux_cons]
          rcases hpn : processNeighbors (lookup g pos) (neighborsOf g pos) g rest
            with ⟨bb, g'', q''⟩
          cases bb
          · rfl
          · have hmeas := processNeighbors_measure (lookup g pos) (neighborsOf g pos)
              g rest g'' q'' hw hpn
            have hwf := processNeighbors_WF (lookup g pos) (neighborsOf g pos) g rest hw
            rw [hpn] at hwf
            have hq : (pos :: rest).length = rest.length + 1 := rfl
            exact propagateAux_fuel_irrel_aux n g'' q'' a b hwf (by omega) (by omega) (by omega)

/-! Contradiction lemmas: a failing propagation has already written the empty
possibility set into an uncollapsed cell of the returned grid. -/

theorem processNeighbors_contra (cell : Cell) :
    ∀ (ns : List (Dir × Pos)) (g : Grid) (q : List Pos) (g' : Grid) (q' : List Pos),
      processNeighbors cell ns g q = (false, g', q') →
      ∃ c ∈ g'.cells, c.collapsed = false ∧ c.possibilities = []
  | [], g, q, g', q', hpn => by
    simp only [processNeighbors] at hpn
    exact absurd (congrArg (fun r => r.1) hpn) (by simp)
  | (d, np) :: ns, g, q, g', q', hpn => by
    rw [processNeighbors_cons] at hpn
    by_cases h1 : (lookup g np).collapsed
    · rw [if_pos h1] at hpn
      exact processNeighbors_contra cell ns g q g' q' hpn
    · rw [if_neg h1] at hpn
      simp only at hpn
      set valid := (lookup g np).possibilities.filter
        (fun t => (if cell.collapsed then cell.chosen.toList else cell.possibilities).any
          (fun c => canConnect c t d)) with hvalid
      by_cases h2 : valid.length < (lookup g np).possibilities.length
      · rw [if_pos h2] at hpn
        have hne : (lookup g np).possibilities ≠ [] := by
          intro hnil
          rw [hnil] at h2
          simp at h2
        have hmem : lookup g np ∈ g.cells ∧ (lookup g np).position = np := by
          rcases lookup_cases g np with h | h
          · exact h
          · rw [h.1] at hne
            simp [junkCell] at hne
        by_cases h3 : valid.isEmpty
        · rw [if_pos h3] at hpn
          have hg' : update g (narrowCell (lookup g np) valid) = g' :=
            congrArg (fun r => r.2.1) hpn
          refine ⟨narrowCell (lookup g np) valid, ?_, ?_, ?_⟩
          · rw [← hg']
            simp only [update, List.mem_map]
            exact ⟨lookup g np, hmem.1, by rw [if_pos (narrowCell_position _ _).symm]⟩
          · simpa using eq_false_of_ne_true (Bool.not_eq_true _ ▸ h1)
          · simpa using h3
        · rw [if_neg h3] at hpn
          exact processNeighbors_contra cell ns _ _ g' q' hpn
      · rw [if_neg h2] at hpn
        exact processNeighbors_contra cell ns g q g' q' hpn

theorem propagateAux_contra :
    ∀ (fuel : ℕ) (g : Grid) (q : List Pos) (g' : Grid),
      propagateAux fuel g q = (false, g') →
      ∃ c ∈ g'.cells, c.collapsed = false ∧ c.possibilities = []
  | 0, g, q, g', hpn => absurd (congrArg (fun r => r.1) hpn) (by simp [propagateAux])
  | _ + 1, g, [], g', hpn => absurd (congrArg (fun r => r.1) hpn) (by simp [propagateAux])
  | fuel + 1, g, pos :: rest, g', hpn => by
    rw [propagateAux_cons] at hpn
    rcases hpn2 : processNeighbors (lookup g pos) (neighborsOf g pos) g rest with ⟨bb, g'', q''⟩
    rw [hpn2] at hpn
    cases bb
    · simp only at hpn
      have hg : g'' = g' := congrArg (fun r => r.2) hpn
      subst hg
      exact processNeighbors_contra (lookup g pos) (neighborsOf g pos) g rest _ q'' hpn2
    · simp only at hpn
      exact propagateAux_contra fuel g'' q'' g' hpn

/-! Selector lemmas: the returned cell is one of the candidates. -/

theorem computeKeys_cells (M : RandomModel) (seed : ℤ) :
    ∀ (cs : List Cell) (k : ℕ), (computeKeys M seed cs k).1.map (fun p => p.1) = cs
  | [], _ => rfl
  | c :: cs, k => by
    simp only [computeKeys, List.map_cons]
    rw [computeKeys_cells M seed cs _]

theorem pyMin_mem (M : RandomModel) :
    ∀ (ps : List (Cell × M.K)) (best : Cell × M.K),
      pyMin M best ps ∈ best.1 :: ps.map (fun p => p.1)
  | [], best => by simp [pyMin]
  | p :: ps, best => by
    rw [pyMin]
    have ih := pyMin_mem M ps (if M.klt p.2 best.2 then p else best)
    rcases List.mem_cons.mp ih with h | h
    · rw [h]
      by_cases hk : M.klt p.2 best.2
      · simp [hk]
      · simp [hk]
    · simp only [List.map_cons, List.mem_cons]
      right
      right
      exact h

theorem findMin_some (M : RandomModel) (seed : ℤ) (g : Grid) (k : ℕ) (cell : Cell) (k1 : ℕ)
    (h : findMinEntropyCell M seed g k = (some cell, k1)) :
    cell ∈ g.cells ∧ cell.collapsed = false ∧ cell.possibilities ≠ [] := by
  unfold findMinEntropyCell at h
  rcases hck : computeKeys M seed
    (g.cells.filter (fun c => !c.collapsed && !c.possibilities.isEmpty)) k with ⟨l, k'⟩
  rw [hck] at h
  cases l with
  | nil => simp at h
  | cons p ps =>
    simp only [Option.some.injEq, Prod.mk.injEq] at h
    have hcand := pyMin_mem M ps p
    have hcells : (p :: ps).map (fun q => q.1)
        = g.cells.filter (fun c => !c.collapsed && !c.possibilities.isEmpty) := by
      have := computeKeys_cells M seed
        (g.cells.filter (fun c => !c.collapsed && !c.possibilities.isEmpty)) k
      rw [hck] at this
      exact this
    rw [← h.1] at *
    have hmem : pyMin M p ps ∈
        g.cells.filter (fun c => !c.collapsed && !c.possibilities.isEmpty) := by
      rw [← hcells]
      simpa using hcand
    have := List.mem_filter.mp hmem
    refine ⟨this.1, ?_, ?_⟩
    · have h2 := this.2
      simp only [Bool.and_eq_true, Bool.not_eq_true'] at h2
      exact h2.1
    · have h2 := this.2
      simp only [Bool.and_eq_true, Bool.not_eq_true'] at h2
      intro hnil
      rw [← List.isEmpty_iff] at hnil
      rw [h2.2] at hnil
      exact Bool.false_ne_true hnil

theorem findMin_none (M : RandomModel) (seed : ℤ) (g : Grid) (k : ℕ) (k1 : ℕ)
    (h : findMinEntropyCell M seed g k = (none, k1)) :
    ∀ c ∈ g.cells, c.collapsed = true ∨ c.possibilities = [] := by
  unfold findMinEntropyCell at h
  rcases hck : computeKeys M seed
    (g.cells.filter (fun c => !c.collapsed && !c.possibilities.isEmpty)) k with ⟨l, k'⟩
  rw [hck] at h
  cases l with
  | cons p ps => simp at h
  | nil =>
    have hcells : ([] : List (Cell × M.K)).map (fun q => q.1)
        = g.cells.filter (fun c => !c.collapsed && !c.possibilities.isEmpty) := by
      have := computeKeys_cells M seed
        (g.cells.filter (fun c => !c.collapsed && !c.possibilities.isEmpty)) k
      rw [hck] at this
      exact this
    simp only [List.map_nil] at hcells
    intro c hc
    by_cases hcol : c.collapsed = true
    · exact Or.inl hcol
    · right
      by_contra hne
      have : c ∈ g.cells.filter (fun c => !c.collapsed && !c.possibilities.isEmpty) := by
        rw [List.mem_filter]
        refine ⟨hc, ?_⟩
        simp only [Bool.and_eq_true, Bool.not_eq_true']
        refine ⟨eq_false_of_ne_true hcol, ?_⟩
        simp [List.isEmpty_iff, hne]
      rw [← hcells] at this
      exact List.not_mem_nil c this

/-! Collapse lemmas. -/

theorem collapseCell_none_iff (M : RandomModel) (seed : ℤ) (c : Cell) (k : ℕ) :
    collapseCell M seed c k = none ↔ c.possibilities = [] := by
  cases h : c.possibilities with
  | nil => simp [collapseCell, h]
  | cons t0 ts0 => simp [collapseCell, h]

theorem collapseCell_some (M : RandomModel) (seed : ℤ) (c : Cell) (k : ℕ) (c' : Cell) (k2 : ℕ)
    (h : collapseCell M seed c k = some (c', k2)) :
    k2 = k + 1 ∧ c'.position = c.position ∧ c'.collapsed = true ∧
      ∃ t, c'.chosen = some t ∧ c'.possibilities = [t] ∧ t ∈ c.possibilities := by
  cases hp : c.possibilities with
  | nil =>
    rw [(collapseCell_none_iff M seed c k).mpr hp] at h
    exact absurd h (by simp)
  | cons t0 ts0 =>
    simp only [collapseCell, hp, Option.some.injEq, Prod.mk.injEq] at h
    obtain ⟨hc', hk2⟩ := h
    refine ⟨hk2.symm, ?_, ?_, ?_⟩
    · rw [← hc']
    · rw [← hc']
    · refine ⟨(t0 :: ts0).get ⟨M.choice seed k ((t0 :: ts0).map (fun t => t.weight))
        % (t0 :: ts0).length, Nat.mod_lt _ (Nat.succ_pos ts0.length)⟩, ?_, ?_, ?_⟩
      · rw [← hc']
      · rw [← hc']
      · exact List.get_mem _ _ _

/-! Counting uncollapsed cells: the generation loop's termination measure. -/

/-- Number of uncollapsed cells. -/
def uncollapsedCount (g : Grid) : ℕ := g.cells.countP (fun c => !c.collapsed)

theorem countP_map_update_list (c' nb : Cell) (pr : Cell → Bool) :
    ∀ l : List Cell, nb ∈ l → (l.map (fun c => c.position)).Nodup →
      c'.position = nb.position →
      (l.map (fun c => if c.position = c'.position then c' else c)).countP pr
          + (if pr nb then 1 else 0)
        = l.countP pr + (if pr c' then 1 else 0)
  | [], hmem, _, _ => absurd hmem (List.not_mem_nil nb)
  | a :: l, hmem, hnd, hpos => by
    simp only [List.map_cons, List.nodup_cons] at hnd
    obtain ⟨hnotin, hndl⟩ := hnd
    by_cases hm : a.position = c'.position
    · have hnb : nb = a := by
        rcases List.mem_cons.mp hmem with h | h
        · exact h
        · exact absurd (List.mem_map.mpr ⟨nb, h, by rw [← hpos, ← hm]⟩) hnotin
      have htail : l.map (fun c => if c.position = c'.position then c' else c) = l := by
        conv_rhs => rw [← List.map_id l]
        refine List.map_congr_left ?_
        intro x hx
        have hxne : x.position ≠ c'.position := by
          intro hxp
          exact hnotin (List.mem_map.mpr ⟨x, hx, by rw [hxp, hm]⟩)
        simp [hxne]
      simp only [List.map_cons, if_pos hm, htail, List.countP_cons]
      subst hnb
      omega
    · have hnbl : nb ∈ l := by
        rcases List.mem_cons.mp hmem with h | h
        · exact absurd (by rw [← h, ← hpos] : a.position = c'.position) hm
        · exact h
      have ih := countP_map_update_list c' nb pr l hnbl hndl hpos
      simp only [List.map_cons, if_neg hm, List.countP_cons]
      omega

theorem uncollapsedCount_update_collapse (g : Grid) (nb c' : Cell) (hmem : nb ∈ g.cells)
    (hpos : c'.position = nb.position)
    (hnd : (g.cells.map (fun c => c.position)).Nodup)
    (hnb : nb.collapsed = false) (hc' : c'.collapsed = true) :
    uncollapsedCount (update g c') + 1 = uncollapsedCount g := by
  have h0 := countP_map_update_list c' nb (fun c => !c.collapsed) g.cells hmem hnd hpos
  simp only [hnb, hc', Bool.not_false, Bool.not_true] at h0
  simp only [if_true, Bool.false_eq_true, if_false, Nat.add_zero] at h0
  show (g.cells.map (fun c => if c.position = c'.position then c' else c)).countP
      (fun c => !c.collapsed) + 1 = g.cells.countP (fun c => !c.collapsed)
  omega

theorem uncollapsedCount_update_keep (g : Grid) (nb c' : Cell) (hmem : nb ∈ g.cells)
    (hpos : c'.position = nb.position)
    (hnd : (g.cells.map (fun c => c.position)).Nodup)
    (hcol : c'.collapsed = nb.collapsed) :
    uncollapsedCount (update g c') = uncollapsedCount g := by
  have h0 := countP_map_update_list c' nb (fun c => !c.collapsed) g.cells hmem hnd hpos
  simp only [hcol] at h0
  show (g.cells.map (fun c => if c.position = c'.position then c' else c)).countP
      (fun c => !c.collapsed) = g.cells.countP (fun c => !c.collapsed)
  omega

theorem uncollapsedCount_pos (g : Grid) (cell : Cell) (hmem : cell ∈ g.cells)
    (hcol : cell.collapsed = false) : 1 ≤ uncollapsedCount g := by
  have h0 : 0 < g.cells.countP (fun c => !c.collapsed) :=
    List.countP_pos_iff.mpr ⟨cell, hmem, by simp [hcol]⟩
  show 1 ≤ g.cells.countP (fun c => !c.collapsed)
  omega

theorem processNeighbors_count (cell : Cell) :
    ∀ (ns : List (Dir × Pos)) (g : Grid) (q : List Pos), WFg g →
      uncollapsedCount (processNeighbors cell ns g q).2.1 = uncollapsedCount g
  | [], _, _, _ => rfl
  | (d, np) :: ns, g, q, hw => by
    rw [processNeighbors_cons]
    by_cases h1 : (lookup g np).collapsed
    · simp only [if_pos h1]
      exact processNeighbors_count cell ns g q hw
    · simp only [if_neg h1]
      set valid := (lookup g np).possibilities.filter
        (fun t => (if cell.collapsed then cell.chosen.toList else cell.possibilities).any
          (fun c => canConnect c t d)) with hvalid
      by_cases h2 : valid.length < (lookup g np).possibilities.length
      · have hne : (lookup g np).possibilities ≠ [] := by
          intro hnil
          rw [hnil] at h2
          simp at h2
        have hmem : lookup g np ∈ g.cells ∧ (lookup g np).position = np := by
          rcases lookup_cases g np with h | h
          · exact h
          · rw [h.1] at hne
            simp [junkCell] at hne
        have hkeep := uncollapsedCount_update_keep g (lookup g np)
          (narrowCell (lookup g np) valid) hmem.1 rfl hw.2.2 rfl
        simp only [if_pos h2]
        by_cases h3 : valid.isEmpty
        · simp only [if_pos h3]
          exact hkeep
        · simp only [if_neg h3]
          rw [processNeighbors_count cell ns _ _ (WFg_update hw _)]
          exact hkeep
      · simp only [if_neg h2]
        exact processNeighbors_count cell ns g q hw

theorem propagateAux_count : ∀ (fuel : ℕ) (g : Grid) (q : List Pos), WFg g →
    uncollapsedCount (propagateAux fuel g q).2 = uncollapsedCount g
  | 0, _, _, _ => rfl
  | _ + 1, _, [], _ => rfl
  | fuel + 1, g, pos :: rest, hw => by
    rw [propagateAux_cons]
    have hcnt := processNeighbors_count (lookup g pos) (neighborsOf g pos) g rest hw
    have hwf := processNeighbors_WF (lookup g pos) (neighborsOf g pos) g rest hw
    rcases hpn : processNeighbors (lookup g pos) (neighborsOf g pos) g rest with ⟨bb, g'', q''⟩
    rw [hpn] at hcnt hwf
    cases bb
    · exact hcnt
    · rw [propagateAux_count fuel g'' q'' hwf]
      exact hcnt

theorem genLoop_succ (M : RandomModel) (seed : ℤ) (fuel : ℕ) (g : Grid) (k : ℕ) :
    genLoop M seed (fuel + 1) g k
      = match findMinEntropyCell M seed g k with
        | (none, _) => (g.cells.all (fun c => c.collapsed), g)
        | (some cell, k1) =>
          match collapseCell M seed cell k1 with
          | none => (false, g)
          | some (c', k2) =>
            match propagate (update g c') cell.position with
            | (false, g2) => (false, g2)
            | (true, g2) => genLoop M seed fuel g2 k2 := rfl

/-! Adjacency invariants carried by every grid the generation loop re-enters.
`Fs`: collapsed cells hold the singleton of their chosen tile.  `Fc`: two
adjacent collapsed cells are connectable.  `Fu`: every remaining possibility
of an uncollapsed cell is connectable to each collapsed neighbor. -/

/-- Collapsed cells carry exactly their chosen tile. -/
def Fs (g : Grid) : Prop :=
  ∀ p : Pos, inRange g p → (lookup g p).collapsed = true →
    ∃ t, (lookup g p).chosen = some t ∧ (lookup g p).possibilities = [t]

/-- Adjacent collapsed cells are compatible. -/
def Fc (g : Grid) : Prop :=
  ∀ p : Pos, inRange g p → ∀ t, (lookup g p).collapsed = true →
    (lookup g p).chosen = some t → ∀ dq ∈ neighborsOf g p,
      (lookup g dq.2).collapsed = true →
        ∀ t2, (lookup g dq.2).chosen = some t2 → canConnect t t2 dq.1 = true

/-- Possibilities of an uncollapsed cell are compatible with every collapsed
neighbor's chosen tile. -/
def Fu (g : Grid) : Prop :=
  ∀ p : Pos, inRange g p → ∀ t, (lookup g p).collapsed = true →
    (lookup g p).chosen = some t → ∀ dq ∈ neighborsOf g p,
      (lookup g dq.2).collapsed = false →
        ∀ t2 ∈ (lookup g dq.2).possibilities, canConnect t t2 dq.1 = true

/-- Everything the generation loop maintains between iterations. -/
def LoopInv (g : Grid) : Prop := WFg g ∧ Fs g ∧ Fc g ∧ Fu g

theorem Shrinks.inRange_iff {g g' : Grid} (h : Shrinks g g') (p : Pos) :
    inRange g' p ↔ inRange g p :=
  inRange_dims g g' p h.1 h.2.1

theorem Shrinks.neighborsOf_eq {g g' : Grid} (h : Shrinks g g') (p : Pos) :
    neighborsOf g' p = neighborsOf g p :=
  neighborsOf_dims g g' p h.1 h.2.1

theorem Shrinks.pres_Fs {g g' : Grid} (h : Shrinks g g') (hf : Fs g) : Fs g' := by
  intro p hp hcol
  have hrange := (h.inRange_iff p).mp hp
  have hflag : (lookup g p).collapsed = true := (h.2.2.2 p).2.1 ▸ hcol
  rw [(h.2.2.2 p).2.2.2.2 hflag]
  exact hf p hrange hflag

theorem Shrinks.pres_Fc {g g' : Grid} (h : Shrinks g g') (hf : Fc g) : Fc g' := by
  intro p hp t hcol hch dq hdq hcolq t2 hchq
  have hrange := (h.inRange_iff p).mp hp
  have hflag : (lookup g p).collapsed = true := (h.2.2.2 p).2.1 ▸ hcol
  have hflagq : (lookup g dq.2).collapsed = true := (h.2.2.2 dq.2).2.1 ▸ hcolq
  rw [(h.2.2.2 p).2.2.2.2 hflag] at hch
  rw [(h.2.2.2 dq.2).2.2.2.2 hflagq] at hchq
  rw [h.neighborsOf_eq p] at hdq
  exact hf p hrange t hflag hch dq hdq hflagq t2 hchq

theorem Shrinks.pres_Fu {g g' : Grid} (h : Shrinks g g') (hf : Fu g) : Fu g' := by
  intro p hp t hcol hch dq hdq hcolq t2 ht2
  have hrange := (h.inRange_iff p).mp hp
  have hflag : (lookup g p).collapsed = true := (h.2.2.2 p).2.1 ▸ hcol
  have hflagq : (lookup g dq.2).collapsed = false := (h.2.2.2 dq.2).2.1 ▸ hcolq
  rw [(h.2.2.2 p).2.2.2.2 hflag] at hch
  rw [h.neighborsOf_eq p] at hdq
  have ht2g : t2 ∈ (lookup g dq.2).possibilities := (h.2.2.2 dq.2).1.subset ht2
  exact hf p hrange t hflag hch dq hdq hflagq t2 ht2g

theorem filter_all_of_not_lt {l : List Tile} {pr : Tile → Bool}
    (h : ¬ (l.filter pr).length < l.length) : l.filter pr = l := by
  have hsub : (l.filter pr).Sublist l := List.filter_sublist l
  exact hsub.eq_of_length (le_antisymm hsub.length_le (le_of_not_lt h))

theorem processNeighbors_establish (cellm : Cell) (t : Tile) (hcol : cellm.collapsed = true)
    (hch : cellm.chosen = some t) :
    ∀ (ns : List (Dir × Pos)) (g : Grid) (q : List Pos) (g' : Grid) (q' : List Pos),
      processNeighbors cellm ns g q = (true, g', q') →
      ∀ dq ∈ ns, (lookup g' dq.2).collapsed = false →
        ∀ t2 ∈ (lookup g' dq.2).possibilities, canConnect t t2 dq.1 = true
  | [], g, q, g', q', hpn, dq, hdq, _, t2, ht2 => absurd hdq (List.not_mem_nil dq)
  | (d, np) :: ns, g, q, g', q', hpn, dq, hdq, hcolq, t2, ht2 => by
    rw [processNeighbors_cons] at hpn
    have hrep : (if cellm.collapsed then cellm.chosen.toList else cellm.possibilities)
        = [t] := by
      rw [if_pos hcol, hch]
      rfl
    by_cases h1 : (lookup g np).collapsed
    · rw [if_pos h1] at hpn
      have hS : Shrinks g g' := by
        have := processNeighbors_shrinks cellm ns g q
        rw [hpn] at this
        exact this
      rcases List.mem_cons.mp hdq with hhd | htl
      · subst hhd
        have : (lookup g' np).collapsed = true := (hS.2.2.2 np).2.1 ▸ h1
        rw [this] at hcolq
        exact absurd hcolq (by simp)
      · exact processNeighbors_establish cellm t hcol hch ns g q g' q' hpn dq htl hcolq t2 ht2
    · rw [if_neg h1] at hpn
      simp only at hpn
      set valid := (lookup g np).possibilities.filter
        (fun s => (if cellm.collapsed then cellm.chosen.toList else cellm.possibilities).any
          (fun c => canConnect c s d)) with hvalid
      have hvalid_conn : ∀ s ∈ valid, canConnect t s d = true := by
        intro s hs
        have := List.mem_filter.mp hs
        rw [hrep] at this
        simpa using this.2
      by_cases h2 : valid.length < (lookup g np).possibilities.length
      · rw [if_pos h2] at hpn
        by_cases h3 : valid.isEmpty
        · rw [if_pos h3] at hpn
          exact absurd (congrArg (fun r => r.1) hpn) (by simp)
        · rw [if_neg h3] at hpn
          have hne : (lookup g np).possibilities ≠ [] := by
            intro hnil
            rw [hnil] at h2
            simp at h2
          have hmem : lookup g np ∈ g.cells ∧ (lookup g np).position = np := by
            rcases lookup_cases g np with hcase | hcase
            · exact hcase
            · rw [hcase.1] at hne
              simp [junkCell] at hne
          have hS1 : Shrinks (update g (narrowCell (lookup g np) valid)) g' := by
            have := processNeighbors_shrinks cellm ns
              (update g (narrowCell (lookup g np) valid)) (q ++ [np])
            rw [hpn] at this
            exact this
          rcases List.mem_cons.mp hdq with hhd | htl
          · subst hhd
            have hl1 : lookup (update g (narrowCell (lookup g np) valid)) np
                = narrowCell (lookup g np) valid := by
              have h0 := lookup_update_self g (narrowCell (lookup g np) valid)
                ⟨lookup g np, hmem.1, by rw [narrowCell_position]⟩
              rw [narrowCell_position, hmem.2] at h0
              exact h0
            have hsub : (lookup g' np).possibilities.Sublist valid := by
              have := (hS1.2.2.2 np).1
              rw [hl1, narrowCell_possibilities] at this
              exact this
            exact hvalid_conn t2 (hsub.subset ht2)
          · exact processNeighbors_establish cellm t hcol hch ns _ _ g' q' hpn dq htl hcolq t2 ht2
      · rw [if_neg h2] at hpn
        have hall : valid = (lookup g np).possibilities := filter_all_of_not_lt h2
        have hS : Shrinks g g' := by
          have := processNeighbors_shrinks cellm ns g q
          rw [hpn] at this
          exact this
        rcases List.mem_cons.mp hdq with hhd | htl
        · subst hhd
          have hsub : (lookup g' np).possibilities.Sublist (lookup g np).possibilities :=
            (hS.2.2.2 np).1
          refine hvalid_conn t2 ?_
          rw [hall]
          exact hsub.subset ht2
        · exact processNeighbors_establish cellm t hcol hch ns g q g' q' hpn dq htl hcolq t2 ht2

theorem propagate_establish (g : Grid) (p : Pos) (t : Tile)
    (hcol : (lookup g p).collapsed = true) (hch : (lookup g p).chosen = some t)
    (g' : Grid) (hp : propagate g p = (true, g')) :
    ∀ dq ∈ neighborsOf g p, (lookup g' dq.2).collapsed = false →
      ∀ t2 ∈ (lookup g' dq.2).possibilities, canConnect t t2 dq.1 = true := by
  have h10 : PROPAGATION_LIMIT = 9999 + 1 := rfl
  rw [propagate, h10, propagateAux_cons] at hp
  rcases hpn : processNeighbors (lookup g p) (neighborsOf g p) g [] with ⟨bb, g1, q1⟩
  rw [hpn] at hp
  cases bb
  · simp only at hp
    exact absurd (congrArg (fun r => r.1) hp) (by simp)
  · simp only at hp
    have hEst := processNeighbors_establish (lookup g p) t hcol hch
      (neighborsOf g p) g [] g1 q1 hpn
    have hS : Shrinks g1 g' := by
      have := propagateAux_shrinks 9999 g1 q1
      rw [hp] at this
      exact this
    intro dq hdq hcolq t2 ht2
    have hcolq1 : (lookup g1 dq.2).collapsed = false := (hS.2.2.2 dq.2).2.1 ▸ hcolq
    have ht21 : t2 ∈ (lookup g1 dq.2).possibilities := (hS.2.2.2 dq.2).1.subset ht2
    exact hEst dq hdq hcolq1 t2 ht21

theorem loopInv_step (M : RandomModel) (seed : ℤ) {g : Grid} (hInv : LoopInv g)
    {k k1 k2 : ℕ} {cell c' : Cell} {g2 : Grid}
    (hfind : findMinEntropyCell M seed g k = (some cell, k1))
    (hcoll : collapseCell M seed cell k1 = some (c', k2))
    (hprop : propagate (update g c') cell.position = (true, g2)) :
    LoopInv g2 := by
  obtain ⟨hw, hFs, hFc, hFu⟩ := hInv
  obtain ⟨hmem, hcolf, hne⟩ := findMin_some M seed g k cell k1 hfind
  obtain ⟨hk2, hcpos, hccol, t, hct, hcposs, htmem⟩ :=
    collapseCell_some M seed cell k1 c' k2 hcoll
  have hcellpos : lookup g cell.position = cell := (hw.1 cell hmem).2
  have hcellrange : inRange g cell.position := (hw.1 cell hmem).1
  have hl1 : lookup (update g c') cell.position = c' := by
    have h0 := lookup_update_self g c' ⟨cell, hmem, hcpos.symm⟩
    rw [hcpos] at h0
    exact h0
  have hlne : ∀ p : Pos, p ≠ cell.position → lookup (update g c') p = lookup g p := by
    intro p hp
    exact lookup_update_ne g c' p (by rw [hcpos]; exact hp)
  have hw1 : WFg (update g c') := WFg_update hw c'
  have hrange1 : ∀ p : Pos, inRange (update g c') p ↔ inRange g p := fun p => Iff.rfl
  have hnbr1 : ∀ p : Pos, neighborsOf (update g c') p = neighborsOf g p := fun p => rfl
  -- the singleton invariant after the collapse
  have hFs1 : Fs (update g c') := by
    intro p hp hcolp
    by_cases hpc : p = cell.position
    · subst hpc
      rw [hl1]
      exact ⟨t, hct, hcposs⟩
    · rw [hlne p hpc] at hcolp ⊢
      exact hFs p ((hrange1 p).mp hp) hcolp
  -- collapsed-collapsed compatibility after the collapse
  have hFc1 : Fc (update g c') := by
    intro p hp t1 hcolp hchp dq hdq hcolq t2 hchq
    rw [hnbr1 p] at hdq
    have hqne : dq.2 ≠ p := neighborsOf_ne g p dq hdq
    by_cases hpc : p = cell.position
    · subst hpc
      rw [hl1, hct] at hchp
      have ht1 : t1 = t := by
        injection hchp with h0
        exact h0.symm
      rw [ht1]
      have hqc : dq.2 ≠ cell.position := hqne
      rw [hlne dq.2 hqc] at hcolq hchq
      -- the collapsed neighbor constrained the old possibilities of `cell`
      have hsymm := neighborsOf_symm g cell.position dq hcellrange hdq
      have hqrange : inRange g dq.2 := neighborsOf_inRange g cell.position dq hdq
      have hconn := hFu dq.2 hqrange t2 hcolq hchq (opposite dq.1, cell.position) hsymm
        (by rw [hcellpos]; exact hcolf) t (by rw [hcellpos]; exact htmem)
      rw [canConnect_flip] at hconn
      exact hconn
    · rw [hlne p hpc] at hcolp hchp
      by_cases hqc : dq.2 = cell.position
      · rw [hqc, hl1, hct] at hchq
        have ht2 : t2 = t := by
          injection hchq with h0
          exact h0.symm
        rw [ht2]
        have := hFu p ((hrange1 p).mp hp) t1 hcolp hchp dq hdq
          (by rw [hqc, hcellpos]; exact hcolf) t (by rw [hqc, hcellpos]; exact htmem)
        exact this
      · rw [hlne dq.2 hqc] at hcolq hchq
        exact hFc p ((hrange1 p).mp hp) t1 hcolp hchp dq hdq hcolq t2 hchq
  -- propagation facts
  have hS : Shrinks (update g c') g2 := by
    have h0 := propagateAux_shrinks PROPAGATION_LIMIT (update g c') [cell.position]
    rw [show propagateAux PROPAGATION_LIMIT (update g c') [cell.position]
      = propagate (update g c') cell.position from rfl, hprop] at h0
    exact h0
  have hw2 : WFg g2 := by
    have h0 := propagateAux_WF PROPAGATION_LIMIT (update g c') [cell.position] hw1
    rw [show propagateAux PROPAGATION_LIMIT (update g c') [cell.position]
      = propagate (update g c') cell.position from rfl, hprop] at h0
    exact h0
  have hFs2 : Fs g2 := hS.pres_Fs hFs1
  have hFc2 : Fc g2 := hS.pres_Fc hFc1
  have hEst := propagate_establish (update g c') cell.position t
    (by rw [hl1]; exact hccol) (by rw [hl1]; exact hct) g2 hprop
  have hFu2 : Fu g2 := by
    intro p hp t1 hcolp hchp dq hdq hcolq t2 ht2
    rw [hS.neighborsOf_eq p] at hdq
    by_cases hpc : p = cell.position
    · subst hpc
      have hcol1 : (lookup (update g c') cell.position).collapsed = true := by
        rw [hl1]
        exact hccol
      have hlg2 : lookup g2 cell.position = c' :=
        ((hS.2.2.2 cell.position).2.2.2.2 hcol1).trans hl1
      rw [hlg2, hct] at hchp
      have ht1 : t1 = t := by
        injection hchp with h0
        exact h0.symm
      rw [ht1]
      exact hEst dq (by rw [hnbr1]; exact hdq) hcolq t2 ht2
    · have hcol1 : (lookup (update g c') p).collapsed = true := by
        rw [← (hS.2.2.2 p).2.1]
        exact hcolp
      have hlg2 : lookup g2 p = lookup (update g c') p := (hS.2.2.2 p).2.2.2.2 hcol1
      rw [hlg2, hlne p hpc] at hchp
      have hcolg : (lookup g p).collapsed = true := by
        rw [← hlne p hpc]
        exact hcol1
      have hcolq1 : (lookup (update g c') dq.2).collapsed = false := by
        rw [← (hS.2.2.2 dq.2).2.1]
        exact hcolq
      have hqc : dq.2 ≠ cell.position := by
        intro he
        rw [he, hl1] at hcolq1
        rw [hccol] at hcolq1
        exact Bool.noConfusion hcolq1
      have hcolqg : (lookup g dq.2).collapsed = false := by
        rw [← hlne dq.2 hqc]
        exact hcolq1
      have ht2g : t2 ∈ (lookup g dq.2).possibilities := by
        have hsub2 := (hS.2.2.2 dq.2).1
        have h0 := hsub2.subset ht2
        rw [hlne dq.2 hqc] at h0
        exact h0
      have hrangep : inRange g p := by
        rw [← hrange1 p, ← hS.inRange_iff p]
        exact hp
      exact hFu p hrangep t1 hcolg hchp dq (by rw [← hnbr1 p]; exact hdq) hcolqg t2 ht2g
  exact ⟨hw2, hFs2, hFc2, hFu2⟩

theorem loopInv_init (w h : ℕ) (ts : List Tile) : LoopInv (initGrid w h ts) := by
  have hfree : ∀ p : Pos, inRange (initGrid w h ts) p →
      (lookup (initGrid w h ts) p).collapsed = false := by
    intro p hp
    obtain ⟨x, y, hx, hy, rfl⟩ := (inRange_initGrid w h ts p).mp hp
    rw [lookup_initGrid w h ts x y hx hy]
  refine ⟨WFg_initGrid w h ts, ?_, ?_, ?_⟩
  · intro p hp hcol
    rw [hfree p hp] at hcol
    exact Bool.noConfusion hcol
  · intro p hp t hcol
    rw [hfree p hp] at hcol
    exact absurd hcol (by simp)
  · intro p hp t hcol
    rw [hfree p hp] at hcol
    exact absurd hcol (by simp)

theorem genLoop_inv (M : RandomModel) (seed : ℤ) :
    ∀ (fuel : ℕ) (g : Grid) (k : ℕ) (gf : Grid), LoopInv g →
      genLoop M seed fuel g k = (true, gf) →
      LoopInv gf ∧ ∀ c ∈ gf.cells, c.collapsed = true
  | 0, g, k, gf, _, hpn => absurd (congrArg (fun r => r.1) hpn) (by simp [genLoop])
  | fuel + 1, g, k, gf, hInv, hpn => by
    rw [genLoop_succ] at hpn
    rcases hfind : findMinEntropyCell M seed g k with ⟨ocell, k1⟩
    rw [hfind] at hpn
    cases ocell with
    | none =>
      simp only at hpn
      have hgf : g = gf := congrArg (fun r => r.2) hpn
      have hall : g.cells.all (fun c => c.collapsed) = true := congrArg (fun r => r.1) hpn
      subst hgf
      exact ⟨hInv, fun c hc => List.all_eq_true.mp hall c hc⟩
    | some cell =>
      simp only at hpn
      rcases hcoll : collapseCell M seed cell k1 with _ | ⟨c', k2⟩
      · rw [hcoll] at hpn
        simp only at hpn
        exact absurd (congrArg (fun r => r.1) hpn) (by simp)
      · rw [hcoll] at hpn
        simp only at hpn
        rcases hprop : propagate (update g c') cell.position with ⟨bb, g2⟩
        rw [hprop] at hpn
        cases bb
        · simp only at hpn
          exact absurd (congrArg (fun r => r.1) hpn) (by simp)
        · simp only at hpn
          exact genLoop_inv M seed fuel g2 k2 gf
            (loopInv_step M seed hInv hfind hcoll hprop) hpn

theorem genLoop_fail (M : RandomModel) (seed : ℤ) :
    ∀ (fuel : ℕ) (g : Grid) (k : ℕ) (gf : Grid), WFg g →
      uncollapsedCount g < fuel → genLoop M seed fuel g k = (false, gf) →
      ∃ c ∈ gf.cells, c.collapsed = false ∧ c.possibilities = []
  | 0, g, k, gf, _, hcnt, _ => absurd hcnt (by omega)
  | fuel + 1, g, k, gf, hw, hcnt, hpn => by
    rw [genLoop_succ] at hpn
    rcases hfind : findMinEntropyCell M seed g k with ⟨ocell, k1⟩
    rw [hfind] at hpn
    cases ocell with
    | none =>
      simp only at hpn
      have hgf : g = gf := congrArg (fun r => r.2) hpn
      have hall : g.cells.all (fun c => c.collapsed) = false := congrArg (fun r => r.1) hpn
      subst hgf
      have hex : ∃ c ∈ g.cells, ¬ c.collapsed = true := by
        by_contra hno
        push_neg at hno
        rw [List.all_eq_true.mpr hno] at hall
        exact Bool.noConfusion hall
      obtain ⟨c, hc, hcnot⟩ := hex
      rcases findMin_none M seed g k k1 hfind c hc with h | h
      · exact absurd h hcnot
      · exact ⟨c, hc, eq_false_of_ne_true hcnot, h⟩
    | some cell =>
      simp only at hpn
      obtain ⟨hmem, hcolf, hne⟩ := findMin_some M seed g k cell k1 hfind
      rcases hcoll : collapseCell M seed cell k1 with _ | ⟨c', k2⟩
      · exact absurd ((collapseCell_none_iff M seed cell k1).mp hcoll) hne
      · rw [hcoll] at hpn
        simp only at hpn
        obtain ⟨hk2, hcpos, hccol, t, hct, hcposs, htmem⟩ :=
          collapseCell_some M seed cell k1 c' k2 hcoll
        rcases hprop : propagate (update g c') cell.position with ⟨bb, g2⟩
        rw [hprop] at hpn
        cases bb
        · simp only at hpn
          have hgf : g2 = gf := congrArg (fun r => r.2) hpn
          subst hgf
          exact propagateAux_contra PROPAGATION_LIMIT (update g c') [cell.position] g2 hprop
        · simp only at hpn
          have hw1 : WFg (update g c') := WFg_update hw c'
          have hw2 : WFg g2 := by
            have h0 := propagateAux_WF PROPAGATION_LIMIT (update g c') [cell.position] hw1
            rw [show propagateAux PROPAGATION_LIMIT (update g c') [cell.position]
              = propagate (update g c') cell.position from rfl, hprop] at h0
            exact h0
          have hcup : uncollapsedCount (update g c') + 1 = uncollapsedCount g :=
            uncollapsedCount_update_collapse g cell c' hmem hcpos hw.2.2 hcolf hccol
          have hc2 : uncollapsedCount g2 = uncollapsedCount (update g c') := by
            have h0 := propagateAux_count PROPAGATION_LIMIT (update g c') [cell.position] hw1
            rw [show propagateAux PROPAGATION_LIMIT (update g c') [cell.position]
              = propagate (update g c') cell.position from rfl, hprop] at h0
            exact h0
          exact genLoop_fail M seed fuel g2 k2 gf hw2 (by omega) hpn

/-! Run-level monotonic narrowing. -/

/-- Per-position narrowing: every possibility list in `g'` is a sublist of
the one in `g`. -/
def Narrows (g g' : Grid) : Prop :=
  ∀ p : Pos, (lookup g' p).possibilities.Sublist (lookup g p).possibilities

theorem narrows_refl (g : Grid) : Narrows g g := fun _ => List.Sublist.refl _

theorem narrows_trans {g g' g'' : Grid} (h1 : Narrows g g') (h2 : Narrows g' g'') :
    Narrows g g'' := fun p => (h2 p).trans (h1 p)

theorem Shrinks.narrows {g g' : Grid} (h : Shrinks g g') : Narrows g g' :=
  fun p => (h.2.2.2 p).1

theorem genLoop_narrows (M : RandomModel) (seed : ℤ) :
    ∀ (fuel : ℕ) (g : Grid) (k : ℕ), WFg g → Narrows g (genLoop M seed fuel g k).2
  | 0, g, _, _ => narrows_refl g
  | fuel + 1, g, k, hw => by
    rw [genLoop_succ]
    rcases hfind : findMinEntropyCell M seed g k with ⟨ocell, k1⟩
    cases ocell with
    | none => exact narrows_refl g
    | some cell =>
      simp only
      rcases hcoll : collapseCell M seed cell k1 with _ | ⟨c', k2⟩
      · exact narrows_refl g
      · simp only
        obtain ⟨hmem, hcolf, hne⟩ := findMin_some M seed g k cell k1 hfind
        obtain ⟨hk2, hcpos, hccol, t, hct, hcposs, htmem⟩ :=
          collapseCell_some M seed cell k1 c' k2 hcoll
        have hN1 : Narrows g (update g c') := by
          intro p
          by_cases hpc : p = cell.position
          · subst hpc
            have hl1 : lookup (update g c') cell.position = c' := by
              have h0 := lookup_update_self g c' ⟨cell, hmem, hcpos.symm⟩
              rw [hcpos] at h0
              exact h0
            rw [hl1, (hw.1 cell hmem).2, hcposs]
            exact List.singleton_sublist.mpr htmem
          · rw [lookup_update_ne g c' p (by rw [hcpos]; exact hpc)]
        have hw1 : WFg (update g c') := WFg_update hw c'
        rcases hprop : propagate (update g c') cell.position with ⟨bb, g2⟩
        have hS : Shrinks (update g c') g2 := by
          have h0 := propagateAux_shrinks PROPAGATION_LIMIT (update g c') [cell.position]
          rw [show propagateAux PROPAGATION_LIMIT (update g c') [cell.position]
            = propagate (update g c') cell.position from rfl, hprop] at h0
          exact h0
        have hw2 : WFg g2 := by
          have h0 := propagateAux_WF PROPAGATION_LIMIT (update g c') [cell.position] hw1
          rw [show propagateAux PROPAGATION_LIMIT (update g c') [cell.position]
            = propagate (update g c') cell.position from rfl, hprop] at h0
          exact h0
        cases bb
        · exact narrows_trans hN1 hS.narrows
        · exact narrows_trans (narrows_trans hN1 hS.narrows) (genLoop_narrows M seed fuel g2 k2 hw2)

/-! Fully compatible tilesets: propagation is a no-op and generation always
succeeds. -/

/-- Every ordered pair of tiles connects in every direction. -/
def allFull (ts : List Tile) : Prop :=
  ∀ t ∈ ts, ∀ t2 ∈ ts, ∀ d : Dir, canConnect t t2 d = true

instance : Fintype Dir where
  elems := {N, S, E, W}
  complete := by
    intro x
    cases x <;> simp

instance (ts : List Tile) : Decidable (allFull ts) := by
  unfold allFull
  infer_instance

/-- Invariant for a fully compatible tileset: every possibility list is
nonempty and drawn from `ts`, and chosen tiles come from `ts`. -/
def MInv (ts : List Tile) (g : Grid) : Prop :=
  WFg g ∧ ∀ p : Pos, inRange g p →
    (lookup g p).possibilities ≠ [] ∧
    (∀ t ∈ (lookup g p).possibilities, t ∈ ts) ∧
    ((lookup g p).collapsed = true → ∃ t, (lookup g p).chosen = some t ∧ t ∈ ts)

theorem MInv_init (w h : ℕ) (ts : List Tile) (hne : ts.dedup ≠ []) :
    MInv ts.dedup (initGrid w h ts) := by
  refine ⟨WFg_initGrid w h ts, ?_⟩
  intro p hp
  obtain ⟨x, y, hx, hy, rfl⟩ := (inRange_initGrid w h ts p).mp hp
  rw [lookup_initGrid w h ts x y hx hy]
  exact ⟨hne, fun t ht => ht, fun hcol => Bool.noConfusion hcol⟩

theorem processNeighbors_noop (ts : List Tile) (hfull : allFull ts) (cellm : Cell)
    (hrne : (if cellm.collapsed then cellm.chosen.toList else cellm.possibilities) ≠ [])
    (hrts : ∀ t ∈ (if cellm.collapsed then cellm.chosen.toList else cellm.possibilities),
      t ∈ ts) :
    ∀ (ns : List (Dir × Pos)) (g : Grid) (q : List Pos),
      (∀ dq ∈ ns, ∀ t ∈ (lookup g dq.2).possibilities, t ∈ ts) →
      processNeighbors cellm ns g q = (true, g, q)
  | [], g, q, _ => rfl
  | (d, np) :: ns, g, q, hts => by
    rw [processNeighbors_cons]
    by_cases h1 : (lookup g np).collapsed
    · rw [if_pos h1]
      exact processNeighbors_noop ts hfull cellm hrne hrts ns g q
        (fun dq hdq => hts dq (List.mem_cons_of_mem _ hdq))
    · rw [if_neg h1]
      simp only
      have hfil : (lookup g np).possibilities.filter
          (fun s => (if cellm.collapsed then cellm.chosen.toList else cellm.possibilities).any
            (fun c => canConnect c s d)) = (lookup g np).possibilities := by
        rw [List.filter_eq_self]
        intro s hs
        obtain ⟨c0, hc0⟩ := List.exists_mem_of_ne_nil _ hrne
        rw [List.any_eq_true]
        refine ⟨c0, hc0, ?_⟩
        exact hfull c0 (hrts c0 hc0) s (hts (d, np) (List.mem_cons_self _ _) s hs) d
      rw [hfil]
      rw [if_neg (by omega)]
      exact processNeighbors_noop ts hfull cellm hrne hrts ns g q
        (fun dq hdq => hts dq (List.mem_cons_of_mem _ hdq))

theorem propagate_noop (ts : List Tile) (hfull : allFull ts) (g : Grid) (p : Pos)
    (hMI : MInv ts g) (hp : inRange g p) : propagate g p = (true, g) := by
  have h10 : PROPAGATION_LIMIT = 9999 + 1 := rfl
  rw [propagate, h10, propagateAux_cons]
  obtain ⟨hposs, hsub, hch⟩ := hMI.2 p hp
  have hrne : (if (lookup g p).collapsed then (lookup g p).chosen.toList
      else (lookup g p).possibilities) ≠ [] := by
    by_cases hc : (lookup g p).collapsed
    · rw [if_pos hc]
      obtain ⟨t, ht, _⟩ := hch hc
      rw [ht]
      simp
    · rw [if_neg hc]
      exact hposs
  have hrts : ∀ t ∈ (if (lookup g p).collapsed then (lookup g p).chosen.toList
      else (lookup g p).possibilities), t ∈ ts := by
    by_cases hc : (lookup g p).collapsed
    · rw [if_pos hc]
      obtain ⟨t, ht, hts⟩ := hch hc
      rw [ht]
      intro s hs
      simp only [Option.toList_some, List.mem_singleton] at hs
      rw [hs]
      exact hts
    · rw [if_neg hc]
      exact hsub
  have hnoop := processNeighbors_noop ts hfull (lookup g p) hrne hrts
    (neighborsOf g p) g []
    (fun dq hdq => (hMI.2 dq.2 (neighborsOf_inRange g p dq hdq)).2.1)
  rw [hnoop]
  exact propagateAux_nil 9999 g

theorem MInv_collapse (ts : List Tile) {M : RandomModel} {seed : ℤ} {g : Grid}
    (hMI : MInv ts g) {k1 k2 : ℕ} {cell c' : Cell} (hmem : cell ∈ g.cells)
    (hcoll : collapseCell M seed cell k1 = some (c', k2)) : MInv ts (update g c') := by
  obtain ⟨hw, hloc⟩ := hMI
  obtain ⟨hk2, hcpos, hccol, t, hct, hcposs, htmem⟩ :=
    collapseCell_some M seed cell k1 c' k2 hcoll
  have hcellpos : lookup g cell.position = cell := (hw.1 cell hmem).2
  have hcellrange : inRange g cell.position := (hw.1 cell hmem).1
  have hl1 : lookup (update g c') cell.position = c' := by
    have h0 := lookup_update_self g c' ⟨cell, hmem, hcpos.symm⟩
    rw [hcpos] at h0
    exact h0
  have htts : t ∈ ts := by
    have := (hloc cell.position hcellrange).2.1
    rw [hcellpos] at this
    exact this t htmem
  refine ⟨WFg_update hw c', ?_⟩
  intro p hp
  have hpg : inRange g p := hp
  by_cases hpc : p = cell.position
  · subst hpc
    rw [hl1, hcposs, hct]
    refine ⟨by simp, ?_, fun _ => ⟨t, rfl, htts⟩⟩
    intro s hs
    simp only [List.mem_singleton] at hs
    rw [hs]
    exact htts
  · rw [lookup_update_ne g c' p (by rw [hcpos]; exact hpc)]
    exact hloc p hpg

theorem genLoop_full (M : RandomModel) (seed : ℤ) (ts : List Tile) (hfull : allFull ts) :
    ∀ (fuel : ℕ) (g : Grid) (k : ℕ), MInv ts g → uncollapsedCount g < fuel →
      ∃ gf, genLoop M seed fuel g k = (true, gf) ∧ gf.cells.length = g.cells.length ∧
        ∀ c ∈ gf.cells, c.collapsed = true ∧ ∃ t, c.chosen = some t
  | 0, g, k, _, hcnt => absurd hcnt (by omega)
  | fuel + 1, g, k, hMI, hcnt => by
    rw [genLoop_succ]
    rcases hfind : findMinEntropyCell M seed g k with ⟨ocell, k1⟩
    cases ocell with
    | none =>
      simp only
      have hall : g.cells.all (fun c => c.collapsed) = true := by
        rw [List.all_eq_true]
        intro c hc
        rcases findMin_none M seed g k k1 hfind c hc with h | h
        · exact h
        · exfalso
          have hrange := (hMI.1.1 c hc).1
          have hlook := (hMI.1.1 c hc).2
          have := (hMI.2 c.position hrange).1
          rw [hlook] at this
          exact this h
      rw [hall]
      refine ⟨g, rfl, rfl, ?_⟩
      intro c hc
      have hcol : c.collapsed = true := List.all_eq_true.mp hall c hc
      have hrange := (hMI.1.1 c hc).1
      have hlook := (hMI.1.1 c hc).2
      have := (hMI.2 c.position hrange).2.2
      rw [hlook] at this
      obtain ⟨t, ht, _⟩ := this hcol
      exact ⟨hcol, t, ht⟩
    | some cell =>
      simp only
      obtain ⟨hmem, hcolf, hne⟩ := findMin_some M seed g k cell k1 hfind
      rcases hcoll : collapseCell M seed cell k1 with _ | ⟨c', k2⟩
      · exact absurd ((collapseCell_none_iff M seed cell k1).mp hcoll) hne
      · simp only
        obtain ⟨hk2, hcpos, hccol, t, hct, hcposs, htmem⟩ :=
          collapseCell_some M seed cell k1 c' k2 hcoll
        have hMI1 : MInv ts (update g c') := MInv_collapse ts hMI hmem hcoll
        have hrange1 : inRange (update g c') cell.position := (hMI.1.1 cell hmem).1
        have hprop := propagate_noop ts hfull (update g c') cell.position hMI1 hrange1
        rw [hprop]
        have hcup : uncollapsedCount (update g c') + 1 = uncollapsedCount g :=
          uncollapsedCount_update_collapse g cell c' hmem hcpos hMI.1.2.2 hcolf hccol
        obtain ⟨gf, hrun, hlen, hprops⟩ := genLoop_full M seed ts hfull fuel
          (update g c') k2 hMI1 (by omega)
        refine ⟨gf, hrun, ?_, hprops⟩
        rw [hlen, update_length]

/-! Concrete fixtures used by counterexamples and witnesses. -/

/-- A tile exposing all four sockets. -/
def tFull : Tile := ⟨"f", {N, S, E, W}, 1⟩

/-- A tile exposing only the east socket. -/
def tEast : Tile := ⟨"e", {E}, 1⟩

/-- A tile exposing only the west socket. -/
def tWest : Tile := ⟨"w", {W}, 1⟩

/-- A tile with no sockets at all. -/
def tNone : Tile := ⟨"z", ∅, 1⟩

/-- A 2×1 grid whose left cell is collapsed to `tEast` and whose right cell
still admits `{tWest, tNone}`: propagating from the left strictly narrows the
right cell and enqueues it. -/
def gLim : Grid :=
  ⟨2, 1, [⟨(0, 0), [tEast], true, some tEast⟩, ⟨(1, 0), [tWest, tNone], false, none⟩]⟩

/-- The grid `gLim` after its single narrowing step. -/
def gLim1 : Grid :=
  ⟨2, 1, [⟨(0, 0), [tEast], true, some tEast⟩, ⟨(1, 0), [tWest], false, none⟩]⟩

/-- A fresh 2×1 grid over `{tEast, tNone}`: the first collapse yields a
contradiction during propagation. -/
def gFail0 : Grid := initGrid 2 1 [tEast, tNone]

/-- The cell the selector picks first in `gFail0`. -/
def cFail : Cell := ⟨(0, 0), [tEast, tNone], false, none⟩

/-- The collapsed form of `cFail`. -/
def cFail' : Cell := ⟨(0, 0), [tEast], true, some tEast⟩

/-- The grid a failed run over `gFail0` leaves behind: the right cell has
been assigned the empty possibility set. -/
def gFail2 : Grid :=
  ⟨2, 1, [⟨(0, 0), [tEast], true, some tEast⟩, ⟨(1, 0), [], false, none⟩]⟩

/-- C1 counterexample.  The claim says that when the iteration counter
reaches the propagation limit with a non-empty queue the call reports
failure.  It does not: with the iteration budget 1, the only allowed
iteration of the loop on `gLim` narrows the neighbor and enqueues it, so the
counter reaches the limit with the queue still `[(1,0)] ≠ []`, and the call
then returns `True` — success, indistinguishable from convergence.  (The
shipped limit 10000 behaves identically: fuel exhaustion always lands in the
`(true, g)` arm.) -/
theorem c1_limit_counterexample :
    processNeighbors (lookup gLim (0, 0)) (neighborsOf gLim (0, 0)) gLim []
        = (true, gLim1, [((1 : ℤ), (0 : ℤ))]) ∧
    propagateAux 1 gLim [(0, 0)] = propagateAux 0 gLim1 [((1 : ℤ), (0 : ℤ))] ∧
    ([((1 : ℤ), (0 : ℤ))] : List Pos) ≠ [] ∧
    propagateAux 0 gLim1 [((1 : ℤ), (0 : ℤ))] = (true, gLim1) := by
  refine ⟨by decide, by decide, by decide, by decide⟩

/-- C1 (amended): if the queue is still non-empty when the iteration counter
reaches the propagation limit, the loop exits and `_propagate` returns
`True` with the grid as narrowed so far; limit exhaustion is reported as
success, not failure, and only an emptied possibility set produces a failure
return. -/
theorem c1_limit_amended (g : Grid) (q : List Pos) (hq : q ≠ []) :
    propagateAux 0 g q = (true, g) := by
  cases q with
  | nil => exact absurd rfl hq
  | cons a l => rfl

/-- Witness for `c1_limit_amended` at the concrete state reached by the
counterexample run. -/
theorem c1_limit_amended_witness :
    propagateAux 0 gLim1 [((1 : ℤ), (0 : ℤ))] = (true, gLim1) :=
  c1_limit_amended gLim1 [((1 : ℤ), (0 : ℤ))] (by decide)

/-- C3: two runs constructed with identical width, height, tile set, and
seed produce identical results (the final per-cell grid, hence identical
per-cell chosen tiles, or the identical failure).  In the embedding all
randomness is drawn from the seed-indexed `RandomModel` threaded through the
run state, so the whole run is a pure function of (width, height, tileset,
seed); re-seeding at construction restarts the draw counter at zero. -/
theorem c3_determinism (M : RandomModel) (w1 h1 : ℕ) (ts1 : List Tile) (s1 : ℤ)
    (w2 h2 : ℕ) (ts2 : List Tile) (s2 : ℤ)
    (hw : w1 = w2) (hh : h1 = h2) (hts : ts1 = ts2) (hs : s1 = s2) :
    runWFC M w1 h1 ts1 s1 = runWFC M w2 h2 ts2 s2 := by
  subst hw
  subst hh
  subst hts
  subst hs
  rfl

/-- Witness for `c3_determinism` on a concrete 1×1 run. -/
theorem c3_determinism_witness :
    runWFC trivialModel 1 1 [tFull] 7 = runWFC trivialModel 1 1 [tFull] 7 :=
  c3_determinism trivialModel 1 1 [tFull] 7 1 1 [tFull] 7 rfl rfl rfl rfl

/-- C8: the propagation loop terminates at a fixpoint (or contradiction)
even without the iteration ceiling: once the fuel is at least the sum of all
possibility-set sizes plus the queue length, the result no longer depends on
the fuel, because every iteration strictly decreases that measure, which is
bounded below by zero.  So the unbounded loop empties its queue after
finitely many steps. -/
theorem c8_propagation_terminates (g : Grid) (q : List Pos) (f1 f2 : ℕ) (hw : WFg g)
    (h1 : sumSizes g + q.length ≤ f1) (h2 : sumSizes g + q.length ≤ f2) :
    propagateAux f1 g q = propagateAux f2 g q :=
  propagateAux_fuel_irrel_aux (sumSizes g + q.length) g q f1 f2 hw (le_refl _) h1 h2

/-- Witness for `c8_propagation_terminates` on a concrete grid: fuels 5 and
9 both exceed the measure and give identical results. -/
theorem c8_propagation_terminates_witness :
    propagateAux 5 (initGrid 2 1 [tEast, tNone]) [((0 : ℤ), (0 : ℤ))]
      = propagateAux 9 (initGrid 2 1 [tEast, tNone]) [((0 : ℤ), (0 : ℤ))] :=
  c8_propagation_terminates (initGrid 2 1 [tEast, tNone]) [((0 : ℤ), (0 : ℤ))] 5 9
    (by decide) (by decide) (by decide)

/-- C10: a propagation contradiction is not atomic — the empty set has
already been written into the (uncollapsed) neighbor when `False` is
returned, so both after a failed `_propagate` call and after a failed
`generate` run the grid contains an uncollapsed cell whose possibility set
is empty; the pre-propagation state is not restored. -/
theorem c10_failure_not_atomic :
    (∀ (fuel : ℕ) (g : Grid) (q : List Pos) (g' : Grid),
      propagateAux fuel g q = (false, g') →
      ∃ c ∈ g'.cells, c.collapsed = false ∧ c.possibilities = []) ∧
    (∀ (M : RandomModel) (w h : ℕ) (ts : List Tile) (seed : ℤ) (gf : Grid),
      runWFC M w h ts seed = (false, gf) →
      ∃ c ∈ gf.cells, c.collapsed = false ∧ c.possibilities = []) := by
  constructor
  · exact propagateAux_contra
  · intro M w h ts seed gf hrun
    simp only [runWFC] at hrun
    refine genLoop_fail M seed ((initGrid w h ts).cells.length + 1) (initGrid w h ts) 0 gf
      (WFg_initGrid w h ts) ?_ hrun
    have := List.countP_le_length (p := fun c => !c.collapsed) (l := (initGrid w h ts).cells)
    show (initGrid w h ts).cells.countP (fun c => !c.collapsed)
      < (initGrid w h ts).cells.length + 1
    omega

/-- Witness for `c10_failure_not_atomic` at the concrete failing propagation
and the concrete failing run over `{tEast, tNone}`. -/
theorem c10_failure_not_atomic_witness :
    (∃ c ∈ gFail2.cells, c.collapsed = false ∧ c.possibilities = []) ∧
    (∃ c ∈ gFail2.cells, c.collapsed = false ∧ c.possibilities = []) :=
  ⟨c10_failure_not_atomic.1 PROPAGATION_LIMIT (update gFail0 cFail') [cFail.position] gFail2
      (by decide),
    c10_failure_not_atomic.2 trivialModel 2 1 [tEast, tNone] 0 gFail2 (by decide)⟩

/-- C2: whenever `generate` returns success, every cell of the grid is
collapsed with its possibility set equal to the singleton of its chosen
tile, and for every pair of adjacent cells the chosen tiles satisfy
`can_connect` in both directions implied by the shared edge. -/
theorem c2_success_postcondition (M : RandomModel) (w h : ℕ) (ts : List Tile) (seed : ℤ)
    (gf : Grid) (hrun : runWFC M w h ts seed = (true, gf)) :
    ∀ c ∈ gf.cells, c.collapsed = true ∧
      (∃ t, c.chosen = some t ∧ c.possibilities = [t]) ∧
      ∀ dq ∈ neighborsOf gf c.position, ∃ t t2,
        c.chosen = some t ∧ (lookup gf dq.2).chosen = some t2 ∧
        canConnect t t2 dq.1 = true ∧ canConnect t2 t (opposite dq.1) = true := by
  simp only [runWFC] at hrun
  obtain ⟨hInvf, hallcol⟩ := genLoop_inv M seed ((initGrid w h ts).cells.length + 1)
    (initGrid w h ts) 0 gf (loopInv_init w h ts) hrun
  obtain ⟨hw, hFs, hFc, hFu⟩ := hInvf
  intro c hc
  have hrange : inRange gf c.position := (hw.1 c hc).1
  have hlook : lookup gf c.position = c := (hw.1 c hc).2
  have hcol : c.collapsed = true := hallcol c hc
  obtain ⟨t, hct, hcposs⟩ := hFs c.position hrange (by rw [hlook]; exact hcol)
  rw [hlook] at hct hcposs
  refine ⟨hcol, ⟨t, hct, hcposs⟩, ?_⟩
  intro dq hdq
  have hqrange : inRange gf dq.2 := neighborsOf_inRange gf c.position dq hdq
  have hqmem := hw.lookup_mem hqrange
  have hqcol : (lookup gf dq.2).collapsed = true := hallcol _ hqmem.1
  obtain ⟨t2, hqt, _⟩ := hFs dq.2 hqrange hqcol
  have hconn := hFc c.position hrange t (by rw [hlook]; exact hcol)
    (by rw [hlook]; exact hct) dq hdq hqcol t2 hqt
  refine ⟨t, t2, hct, hqt, hconn, ?_⟩
  rw [canConnect_flip]
  exact hconn

/-- Witness for `c2_success_postcondition` on a successful 2×1 run: the cell
at (0,0) is collapsed, and the adjacent pair across the shared east edge is
connectable in both directions. -/
theorem c2_success_postcondition_witness :
    (lookup (runWFC trivialModel 2 1 [tFull] 0).2 ((0 : ℤ), (0 : ℤ))).collapsed = true ∧
    ∃ t t2, (lookup (runWFC trivialModel 2 1 [tFull] 0).2 ((0 : ℤ), (0 : ℤ))).chosen = some t ∧
      (lookup (runWFC trivialModel 2 1 [tFull] 0).2 ((1 : ℤ), (0 : ℤ))).chosen = some t2 ∧
      canConnect t t2 E = true ∧ canConnect t2 t (opposite E) = true := by
  have h := c2_success_postcondition trivialModel 2 1 [tFull] 0
    (runWFC trivialModel 2 1 [tFull] 0).2 (by decide)
  have h0 := h (lookup (runWFC trivialModel 2 1 [tFull] 0).2 ((0 : ℤ), (0 : ℤ))) (by decide)
  refine ⟨h0.1, ?_⟩
  have h1 := h0.2.2 (E, ((1 : ℤ), (0 : ℤ))) (by decide)
  exact h1

/-- C7: the collapse operation returns a declined result exactly when the
possibility set is empty (it is a total function, so it never raises);
otherwise it draws the tile indexed by the run's seeded generator from
`list(cell.possibilities)` weighted by the current weights, sets `chosen` to
it, replaces `possibilities` with the singleton containing it, sets
`collapsed`, advances the draw counter, and reports success. -/
theorem c7_collapse_contract (M : RandomModel) (seed : ℤ) (c : Cell) (k : ℕ) :
    (collapseCell M seed c k = none ↔ c.possibilities = []) ∧
    (∀ (t0 : Tile) (ts0 : List Tile), c.possibilities = t0 :: ts0 →
      collapseCell M seed c k = some
        ({ position := c.position,
           possibilities := [(t0 :: ts0).get
             ⟨M.choice seed k ((t0 :: ts0).map (fun s => s.weight)) % (t0 :: ts0).length,
              Nat.mod_lt _ (Nat.succ_pos ts0.length)⟩],
           collapsed := true,
           chosen := some ((t0 :: ts0).get
             ⟨M.choice seed k ((t0 :: ts0).map (fun s => s.weight)) % (t0 :: ts0).length,
              Nat.mod_lt _ (Nat.succ_pos ts0.length)⟩) }, k + 1) ∧
      (t0 :: ts0).get
          ⟨M.choice seed k ((t0 :: ts0).map (fun s => s.weight)) % (t0 :: ts0).length,
           Nat.mod_lt _ (Nat.succ_pos ts0.length)⟩ ∈ c.possibilities) := by
  refine ⟨collapseCell_none_iff M seed c k, ?_⟩
  intro t0 ts0 hp
  constructor
  · unfold collapseCell
    rw [hp]
  · rw [hp]
    exact List.get_mem _ _ _

/-- Witness for `c7_collapse_contract`: the empty cell is declined, the
singleton cell collapses to its only tile. -/
theorem c7_collapse_contract_witness :
    collapseCell trivialModel 0 (⟨(0, 0), [], false, none⟩ : Cell) 0 = none ∧
    collapseCell trivialModel 0 (⟨(0, 0), [tFull], false, none⟩ : Cell) 0
      = some ({ position := ((0 : ℤ), (0 : ℤ)),
                possibilities := [([tFull] : List Tile).get
                  ⟨trivialModel.choice 0 0 ([tFull].map (fun s => s.weight)) % [tFull].length,
                   Nat.mod_lt _ (Nat.succ_pos 0)⟩],
                collapsed := true,
                chosen := some (([tFull] : List Tile).get
                  ⟨trivialModel.choice 0 0 ([tFull].map (fun s => s.weight)) % [tFull].length,
                   Nat.mod_lt _ (Nat.succ_pos 0)⟩) }, 1) :=
  ⟨(c7_collapse_contract trivialModel 0 ⟨(0, 0), [], false, none⟩ 0).1.mpr rfl,
    ((c7_collapse_contract trivialModel 0 ⟨(0, 0), [tFull], false, none⟩ 0).2
      tFull [] rfl).1⟩

/-- C4: one propagation step toward an uncollapsed neighbor computes exactly
the set of its current tiles connectable from the representative set of the
popped cell (the chosen singleton when collapsed, its possibilities
otherwise), with `can_connect a b d` true iff `d ∈ a.sockets` and
`opposite d ∈ b.sockets`, `opposite` exchanging N↔S and E↔W; collapsed
neighbors are skipped; a strict shrink to the empty set returns failure
immediately (the empty set already assigned); a strict shrink to a nonempty
set assigns it and enqueues the neighbor; and the set changed (shrank)
exactly when it is strictly smaller, an unchanged set leaving grid and queue
untouched. -/
theorem c4_propagation_step (cellm : Cell) (d : Dir) (np : Pos) (ns : List (Dir × Pos))
    (g : Grid) (q : List Pos) :
    (∀ t2, t2 ∈ (lookup g np).possibilities.filter
        (fun s => (if cellm.collapsed then cellm.chosen.toList else cellm.possibilities).any
          (fun c => canConnect c s d))
      ↔ t2 ∈ (lookup g np).possibilities ∧
        ∃ c ∈ (if cellm.collapsed then cellm.chosen.toList else cellm.possibilities),
          canConnect c t2 d = true) ∧
    (((lookup g np).possibilities.filter
        (fun s => (if cellm.collapsed then cellm.chosen.toList else cellm.possibilities).any
          (fun c => canConnect c s d))).length < (lookup g np).possibilities.length
      ↔ (lookup g np).possibilities.filter
          (fun s => (if cellm.collapsed then cellm.chosen.toList else cellm.possibilities).any
            (fun c => canConnect c s d)) ≠ (lookup g np).possibilities) ∧
    ((lookup g np).collapsed = true →
      processNeighbors cellm ((d, np) :: ns) g q = processNeighbors cellm ns g q) ∧
    (∀ valid, valid = (lookup g np).possibilities.filter
        (fun s => (if cellm.collapsed then cellm.chosen.toList else cellm.possibilities).any
          (fun c => canConnect c s d)) →
      (lookup g np).collapsed = false →
      (valid = [] → (lookup g np).possibilities ≠ [] →
        processNeighbors cellm ((d, np) :: ns) g q
          = (false, update g (narrowCell (lookup g np) valid), q)) ∧
      (valid ≠ [] → valid.length < (lookup g np).possibilities.length →
        processNeighbors cellm ((d, np) :: ns) g q
          = processNeighbors cellm ns (update g (narrowCell (lookup g np) valid))
              (q ++ [np])) ∧
      (valid = (lookup g np).possibilities →
        processNeighbors cellm ((d, np) :: ns) g q = processNeighbors cellm ns g q)) ∧
    (∀ a b : Tile, ∀ d2 : Dir,
      canConnect a b d2 = true ↔ (d2 ∈ a.sockets ∧ opposite d2 ∈ b.sockets)) ∧
    (opposite N = S ∧ opposite S = N ∧ opposite E = W ∧ opposite W = E) := by
  refine ⟨?_, ?_, ?_, ?_, canConnect_true_iff, rfl, rfl, rfl, rfl⟩
  · intro t2
    rw [List.mem_filter]
    simp [List.any_eq_true]
  · constructor
    · intro hlt heq
      rw [heq] at hlt
      exact lt_irrefl _ hlt
    · intro hne
      have hsub : ((lookup g np).possibilities.filter
          (fun s => (if cellm.collapsed then cellm.chosen.toList
            else cellm.possibilities).any (fun c => canConnect c s d))).Sublist
          (lookup g np).possibilities := List.filter_sublist _
      rcases lt_or_eq_of_le hsub.length_le with h | h
      · exact h
      · exact absurd (hsub.eq_of_length h) hne
  · intro hcolq
    rw [processNeighbors_cons, if_pos hcolq]
  · intro valid hvalid hcolq
    refine ⟨?_, ?_, ?_⟩
    · intro hnil hne
      rw [processNeighbors_cons, if_neg (by rw [hcolq]; exact Bool.false_ne_true)]
      simp only [← hvalid]
      rw [if_pos (by rw [hnil]; exact List.length_pos.mpr hne)]
      rw [if_pos (by rw [hnil]; rfl)]
    · intro hne hlt
      rw [processNeighbors_cons, if_neg (by rw [hcolq]; exact Bool.false_ne_true)]
      simp only [← hvalid]
      rw [if_pos hlt]
      rw [if_neg (by simp [List.isEmpty_iff, hne])]
    · intro hall
      rw [processNeighbors_cons, if_neg (by rw [hcolq]; exact Bool.false_ne_true)]
      simp only [← hvalid]
      rw [if_neg (by rw [hall]; exact lt_irrefl _)]

/-- Witness for `c4_propagation_step`: on `gLim`, the step toward the
collapsed left cell is skipped, and the step from the collapsed left cell
toward the right neighbor narrows it to `[tWest]` and enqueues `(1,0)`. -/
theorem c4_propagation_step_witness :
    (processNeighbors (lookup gLim (1, 0)) [(W, ((0 : ℤ), (0 : ℤ)))] gLim []
      = processNeighbors (lookup gLim (1, 0)) [] gLim []) ∧
    (processNeighbors (lookup gLim (0, 0)) [(E, ((1 : ℤ), (0 : ℤ)))] gLim []
      = processNeighbors (lookup gLim (0, 0)) []
          (update gLim (narrowCell (lookup gLim (1, 0)) [tWest]))
          ([] ++ [((1 : ℤ), (0 : ℤ))])) :=
  ⟨(c4_propagation_step (lookup gLim (1, 0)) W ((0 : ℤ), (0 : ℤ)) [] gLim []).2.2.1
      (by decide),
    ((c4_propagation_step (lookup gLim (0, 0)) E ((1 : ℤ), (0 : ℤ)) [] gLim []).2.2.2.1
      [tWest] (by decide) (by decide)).2.1 (by decide) (by decide)⟩

/-- C5: possibility sets only ever narrow.  A propagation call leaves every
cell's possibility list a subset (of no greater size) of what it was; a
successful collapse replaces the list by a singleton drawn from it; and over
a whole run, from grid initialization on, every cell's final possibility
list is a subset (of no greater size) of its initial one. -/
theorem c5_monotonic_narrowing :
    (∀ (fuel : ℕ) (g : Grid) (q : List Pos) (p : Pos),
      (lookup (propagateAux fuel g q).2 p).possibilities ⊆ (lookup g p).possibilities ∧
      (lookup (propagateAux fuel g q).2 p).possibilities.length
        ≤ (lookup g p).possibilities.length) ∧
    (∀ (M : RandomModel) (seed : ℤ) (c : Cell) (k : ℕ) (c' : Cell) (k2 : ℕ),
      collapseCell M seed c k = some (c', k2) →
      c'.possibilities ⊆ c.possibilities ∧
      c'.possibilities.length ≤ c.possibilities.length) ∧
    (∀ (M : RandomModel) (w h : ℕ) (ts : List Tile) (seed : ℤ) (p : Pos),
      (lookup (runWFC M w h ts seed).2 p).possibilities
          ⊆ (lookup (initGrid w h ts) p).possibilities ∧
      (lookup (runWFC M w h ts seed).2 p).possibilities.length
        ≤ (lookup (initGrid w h ts) p).possibilities.length) := by
  refine ⟨?_, ?_, ?_⟩
  · intro fuel g q p
    have hsub := (propagateAux_shrinks fuel g q).2.2.2 p |>.1
    exact ⟨hsub.subset, hsub.length_le⟩
  · intro M seed c k c' k2 hcoll
    obtain ⟨hk2, hcpos, hccol, t, hct, hcposs, htmem⟩ :=
      collapseCell_some M seed c k c' k2 hcoll
    rw [hcposs]
    constructor
    · intro s hs
      simp only [List.mem_singleton] at hs
      rw [hs]
      exact htmem
    · have : c.possibilities ≠ [] := by
        intro hnil
        rw [(collapseCell_none_iff M seed c k).mpr hnil] at hcoll
        exact Option.noConfusion hcoll
      have := List.length_pos.mpr this
      simp only [List.length_singleton]
      omega
  · intro M w h ts seed p
    have hN := genLoop_narrows M seed ((initGrid w h ts).cells.length + 1)
      (initGrid w h ts) 0 (WFg_initGrid w h ts)
    have hsub := hN p
    exact ⟨hsub.subset, hsub.length_le⟩

/-- Witness for `c5_monotonic_narrowing`: the collapse clause at a concrete
singleton cell, and the run clause at the failing `{tEast, tNone}` run. -/
theorem c5_monotonic_narrowing_witness :
    ((⟨(0, 0), [tFull], true, some tFull⟩ : Cell).possibilities
        ⊆ (⟨(0, 0), [tFull], false, none⟩ : Cell).possibilities ∧
      (⟨(0, 0), [tFull], true, some tFull⟩ : Cell).possibilities.length
        ≤ (⟨(0, 0), [tFull], false, none⟩ : Cell).possibilities.length) ∧
    ((lookup (runWFC trivialModel 2 1 [tEast, tNone] 0).2 ((1 : ℤ), (0 : ℤ))).possibilities
        ⊆ (lookup (initGrid 2 1 [tEast, tNone]) ((1 : ℤ), (0 : ℤ))).possibilities ∧
      (lookup (runWFC trivialModel 2 1 [tEast, tNone] 0).2
          ((1 : ℤ), (0 : ℤ))).possibilities.length
        ≤ (lookup (initGrid 2 1 [tEast, tNone]) ((1 : ℤ), (0 : ℤ))).possibilities.length) :=
  ⟨c5_monotonic_narrowing.2.1 trivialModel 0 ⟨(0, 0), [tFull], false, none⟩ 0
      ⟨(0, 0), [tFull], true, some tFull⟩ 1 (by decide),
    c5_monotonic_narrowing.2.2 trivialModel 2 1 [tEast, tNone] 0 ((1 : ℤ), (0 : ℤ))⟩

/-- C6: contradiction is terminal.  A successful run never contains an
emptied cell (so once a possibility set empties the run result is failure);
the moment a propagation call fails, the generation loop returns that very
failure and grid with no further iteration; and propagation itself never
collapses any cell, so no cell is ever collapsed after the contradiction. -/
theorem c6_contradiction_terminal :
    (∀ (M : RandomModel) (w h : ℕ) (ts : List Tile) (seed : ℤ) (gf : Grid),
      runWFC M w h ts seed = (true, gf) → ∀ c ∈ gf.cells, c.possibilities ≠ []) ∧
    (∀ (M : RandomModel) (seed : ℤ) (fuel : ℕ) (g : Grid) (k k1 k2 : ℕ)
        (cell c' : Cell) (g2 : Grid),
      findMinEntropyCell M seed g k = (some cell, k1) →
      collapseCell M seed cell k1 = some (c', k2) →
      propagate (update g c') cell.position = (false, g2) →
      genLoop M seed (fuel + 1) g k = (false, g2)) ∧
    (∀ (fuel : ℕ) (g : Grid) (q : List Pos) (p : Pos),
      (lookup (propagateAux fuel g q).2 p).collapsed = (lookup g p).collapsed) := by
  refine ⟨?_, ?_, ?_⟩
  · intro M w h ts seed gf hrun c hc
    simp only [runWFC] at hrun
    obtain ⟨hInvf, hallcol⟩ := genLoop_inv M seed ((initGrid w h ts).cells.length + 1)
      (initGrid w h ts) 0 gf (loopInv_init w h ts) hrun
    obtain ⟨hw, hFs, _, _⟩ := hInvf
    have hrange : inRange gf c.position := (hw.1 c hc).1
    have hlook : lookup gf c.position = c := (hw.1 c hc).2
    obtain ⟨t, _, hcposs⟩ := hFs c.position hrange (by rw [hlook]; exact hallcol c hc)
    rw [hlook] at hcposs
    rw [hcposs]
    exact List.cons_ne_nil t []
  · intro M seed fuel g k k1 k2 cell c' g2 hfind hcoll hprop
    rw [genLoop_succ, hfind]
    simp only
    rw [hcoll]
    simp only
    rw [hprop]
  · intro fuel g q p
    exact (propagateAux_shrinks fuel g q).2.2.2 p |>.2.1

/-- Witness for `c6_contradiction_terminal`: the concrete failing run over
`{tEast, tNone}` stops at the failed propagation with the grid it produced,
whose collapse flags the propagation left untouched. -/
theorem c6_contradiction_terminal_witness :
    genLoop trivialModel 0 1 gFail0 0 = (false, gFail2) ∧
    (lookup (propagateAux PROPAGATION_LIMIT (update gFail0 cFail') [cFail.position]).2
        ((0 : ℤ), (0 : ℤ))).collapsed
      = (lookup (update gFail0 cFail') ((0 : ℤ), (0 : ℤ))).collapsed :=
  ⟨c6_contradiction_terminal.2.1 trivialModel 0 0 gFail0 0 2 3 cFail cFail' gFail2
      (by decide) (by decide) (by decide),
    c6_contradiction_terminal.2.2 PROPAGATION_LIMIT (update gFail0 cFail') [cFail.position]
      ((0 : ℤ), (0 : ℤ))⟩

/-- C9: a 3×3 run over the maze tileset (wall, weight 2; path, weight 1;
both with all four sockets) with seed 42 succeeds for every random model:
all 9 cells end collapsed with a chosen tile (no unresolved cell), because
every ordered pair of these tiles is connectable in every direction, so no
possibility set can ever shrink, let alone empty. -/
theorem c9_maze_3x3_succeeds (M : RandomModel) :
    (runWFC M 3 3 mazeTileset 42).1 = true ∧
    (runWFC M 3 3 mazeTileset 42).2.cells.length = 9 ∧
    ∀ c ∈ (runWFC M 3 3 mazeTileset 42).2.cells,
      c.collapsed = true ∧ ∃ t, c.chosen = some t := by
  have hfull : allFull mazeTileset.dedup := by decide
  have hMI := MInv_init 3 3 mazeTileset (by decide)
  obtain ⟨gf, hrun, hlen, hprops⟩ := genLoop_full M 42 mazeTileset.dedup hfull 10
    (initGrid 3 3 mazeTileset) 0 hMI (by decide)
  have hrw : runWFC M 3 3 mazeTileset 42
      = genLoop M 42 ((initGrid 3 3 mazeTileset).cells.length + 1)
          (initGrid 3 3 mazeTileset) 0 := rfl
  have hfuel : (initGrid 3 3 mazeTileset).cells.length + 1 = 10 := by decide
  rw [hrw, hfuel, hrun]
  refine ⟨rfl, ?_, hprops⟩
  rw [hlen]
  decide
